import Mathlib

/-!
Shallow embedding of the jink-vscode language server core
(`src/server/src/language.ts` and `src/server/src/server.ts`).

Texts are modelled as lists of characters (`List Char`); for the ASCII
inputs the server handles this agrees with JavaScript's UTF-16 string
indexing.  JavaScript `Map`s are modelled as association lists that keep
insertion order (`mset` replaces in place or appends, `mdel` removes the
key, `mget` finds the first entry), which is exactly the observable
behaviour of `Map.set` / `Map.delete` / `Map.get`.
Each regular expression of the source is hand-translated into a matcher
function whose backtracking behaviour is reproduced where it matters
(greedy captures up to the last closing bracket, optional groups, etc.).
-/

/-- JavaScript `\s` (whitespace) restricted to the characters that occur in
source texts; used by `trim`, `\s+` / `\s*` pattern parts and look-arounds. -/
def jsSpace (c : Char) : Bool :=
  c = ' ' || c = '\t' || c = '\n' || c = '\r' || c = '\x0b' || c = '\x0c'

/-- JavaScript `\w` / the `[a-zA-Z0-9_]` character class. -/
def isWordChar (c : Char) : Bool :=
  (('a' ≤ c && c ≤ 'z') || ('A' ≤ c && c ≤ 'Z') || ('0' ≤ c && c ≤ '9') || c = '_')

/-- The `[a-zA-Z_]` character class (identifier start). -/
def isIdStart (c : Char) : Bool :=
  (('a' ≤ c && c ≤ 'z') || ('A' ≤ c && c ≤ 'Z') || c = '_')

/-- The `[a-zA-Z0-9_.]` character class used for dotted module paths. -/
def isPathChar (c : Char) : Bool :=
  isWordChar c || c = '.'

/-- `String.prototype.trim()`. -/
def jsTrim (cs : List Char) : List Char :=
  ((cs.dropWhile jsSpace).reverse.dropWhile jsSpace).reverse

/-- `text.split(/\r?\n/g)`: split at newlines, dropping a carriage return
that immediately precedes the newline. -/
def splitLines (cs : List Char) : List (List Char) :=
  go cs []
where
  go : List Char → List Char → List (List Char)
    | [], acc => [acc.reverse]
    | '\n' :: rest, acc =>
        (match acc with
          | '\r' :: acc' => acc'.reverse
          | _ => acc.reverse) :: go rest []
    | c :: rest, acc => go rest (c :: acc)

/-- Does `pat` occur as a sublist starting at the head of `cs`? -/
def startsWithSub : List Char → List Char → Bool
  | _, [] => true
  | [], _ :: _ => false
  | c :: cs, p :: ps => c = p && startsWithSub cs ps

/-- `String.prototype.indexOf`: index of the first occurrence of `pat` in
`cs`, or `none`.  (JS returns `-1` for "not found"; callers that compare
with `-1` test the `Option` instead.) -/
def indexOfSub (cs pat : List Char) : Option Nat :=
  go cs 0
where
  go : List Char → Nat → Option Nat
    | [], i => if pat.isEmpty && i = 0 then some 0 else none
    | c :: rest, i =>
        if startsWithSub (c :: rest) pat then some i else go rest (i + 1)

/-- `String.prototype.indexOf(pat, from)`: first occurrence at index ≥ `from`. -/
def indexOfSubFrom (cs pat : List Char) (start : Nat) : Option Nat :=
  (indexOfSub (cs.drop start) pat).map (· + start)

/-- `String.prototype.lastIndexOf`: index of the last occurrence of `pat`. -/
def lastIndexOfSub (cs pat : List Char) : Option Nat :=
  go cs 0 none
where
  go : List Char → Nat → Option Nat → Option Nat
    | [], i, acc => if pat.isEmpty then some i else acc
    | c :: rest, i, acc =>
        go rest (i + 1)
          (if startsWithSub (c :: rest) pat then some i else acc)

/-- `String.prototype.includes(c)` for a single character. -/
def containsChar (cs : List Char) (c : Char) : Bool :=
  cs.any (· = c)

/-- `String.prototype.endsWith`. -/
def endsWithSub (cs pat : List Char) : Bool :=
  startsWithSub (cs.reverse) (pat.reverse)

/-- `str.split(sep)` for a single-character separator; like JS split it
returns at least one (possibly empty) piece. -/
def splitOnChar (sep : Char) (cs : List Char) : List (List Char) :=
  go cs []
where
  go : List Char → List Char → List (List Char)
    | [], acc => [acc.reverse]
    | c :: rest, acc =>
        if c = sep then acc.reverse :: go rest [] else go rest (c :: acc)

/-- `modulePath.replace(/\./g, '/')`. -/
def dotsToSlashes (cs : List Char) : List Char :=
  cs.map (fun c => if c = '.' then '/' else c)

/-- A run of `n` spaces (used when comments are blanked out). -/
def spacesList (n : Nat) : List Char :=
  List.replicate n ' '

section DataModel

/-- The subset of `vscode-languageserver`'s `SymbolKind` the indexer uses. -/
inductive SymKind where
  | variableKind
  | constantKind
  | classKind
  | functionKind
  | fieldKind
deriving DecidableEq, Repr

/-- An LSP `Range` (`Range.create(startLine, startChar, endLine, endChar)`). -/
structure JRange where
  startLine : Nat
  startChar : Nat
  endLine : Nat
  endChar : Nat
deriving DecidableEq, Repr

/-- `JinkSymbol` from `indexer.ts`: a named declaration.  `children` holds
struct fields, `parameters` holds `(name, type)` pairs of callables; both
are `Option` because the source leaves them `undefined` except in the
struct / function branches. -/
inductive JinkSymbol where
  | mk (name : String) (kind : SymKind) (uri : String) (range : JRange)
       (isPublic : Bool) (children : Option (List JinkSymbol))
       (parameters : Option (List (String × String)))

def JinkSymbol.name : JinkSymbol → String
  | .mk n _ _ _ _ _ _ => n

def JinkSymbol.kind : JinkSymbol → SymKind
  | .mk _ k _ _ _ _ _ => k

def JinkSymbol.uri : JinkSymbol → String
  | .mk _ _ u _ _ _ _ => u

def JinkSymbol.range : JinkSymbol → JRange
  | .mk _ _ _ r _ _ _ => r

def JinkSymbol.isPublic : JinkSymbol → Bool
  | .mk _ _ _ _ p _ _ => p

def JinkSymbol.children : JinkSymbol → Option (List JinkSymbol)
  | .mk _ _ _ _ _ c _ => c

def JinkSymbol.parameters : JinkSymbol → Option (List (String × String))
  | .mk _ _ _ _ _ _ ps => ps

/-- `JinkImport` from `indexer.ts`. -/
structure JinkImport where
  modulePath : String
  alias? : Option String
  isWildcard : Bool
  names : List (String × Option String)
  range : JRange
deriving DecidableEq, Repr

end DataModel

section MapOps

variable {α : Type}

/-- `Map.get`: the first entry with the given key. -/
def mget : List (String × α) → String → Option α
  | [], _ => none
  | p :: m, k => if p.1 = k then some p.2 else mget m k

/-- `Map.set`: replace the value in place when the key is present,
otherwise append a new entry (JS `Map` insertion-order semantics; keys are
unique in every map the indexer builds, so replacing the first occurrence
is exact). -/
def mset : List (String × α) → String → α → List (String × α)
  | [], k, v => [(k, v)]
  | p :: m, k, v => if p.1 = k then (k, v) :: m else p :: mset m k v

/-- `Map.delete` (on unique-keyed maps, removing every entry with the key
coincides with JS's single-entry delete). -/
def mdel : List (String × α) → String → List (String × α)
  | [], _ => []
  | p :: m, k => if p.1 = k then mdel m k else p :: mdel m k

/-- `Map.keys()` in insertion order. -/
def mkeys (m : List (String × α)) : List String :=
  m.map (·.1)

/-- `map.get(k) || []` — the pattern both files use to read list values. -/
def mgetD (m : List (String × List β)) (k : String) : List β :=
  (mget m k).getD []

theorem mget_mset (m : List (String × α)) (k k' : String) (v : α) :
    mget (mset m k v) k' = if k' = k then some v else mget m k' := by
  induction m with
  | nil =>
      simp only [mset, mget]
      by_cases h : k' = k
      · rw [if_pos h.symm, if_pos h]
      · rw [if_neg (fun hh => h hh.symm), if_neg h]
  | cons p m ih =>
      simp only [mset]
      by_cases hp : p.1 = k
      · rw [if_pos hp]
        simp only [mget]
        by_cases h : k' = k
        · rw [if_pos h.symm, if_pos h]
        · rw [if_neg (fun hh => h hh.symm), if_neg h, if_neg (fun hh => h (hp ▸ hh).symm)]
      · rw [if_neg hp]
        simp only [mget]
        by_cases hpk' : p.1 = k'
        · have hne : ¬ k' = k := fun hh => hp (hpk'.trans hh)
          rw [if_pos hpk', if_neg hne, if_pos hpk']
        · rw [if_neg hpk', if_neg hpk', ih]

theorem mget_mdel (m : List (String × α)) (k k' : String) :
    mget (mdel m k) k' = if k' = k then none else mget m k' := by
  induction m with
  | nil => simp [mdel, mget]
  | cons p m ih =>
      simp only [mdel]
      by_cases hp : p.1 = k
      · rw [if_pos hp, ih]
        by_cases h : k' = k
        · rw [if_pos h, if_pos h]
        · rw [if_neg h, if_neg h]
          simp only [mget]
          rw [if_neg (fun hh => h (hp ▸ hh).symm)]
      · rw [if_neg hp]
        simp only [mget]
        by_cases hpk' : p.1 = k'
        · have hne : ¬ k' = k := fun hh => hp (hpk'.trans hh)
          rw [if_pos hpk', if_neg hne, if_pos hpk']
        · rw [if_neg hpk', if_neg hpk', ih]

end MapOps

section Language

/-- `keywords` from `language.ts`. -/
def jinkKeywords : List String :=
  ["if", "else", "elseif", "return", "del", "fun", "let", "const",
   "type", "cls", "pub", "import", "from", "as", "while", "for", "in",
   "break", "continue", "enum", "extern"]

/-- `builtins` from `language.ts`. -/
def jinkBuiltins : List String :=
  ["void", "true", "false", "null", "self", "int", "float", "string", "bool",
   "ptr", "obj", "__ptr_write_int", "__ptr_read_int", "__ptr_write_string",
   "__ptr_read_string"]

/-- `declarationKeywords` from `language.ts`. -/
def jinkDeclKeywords : List String :=
  ["let", "const", "type", "enum", "cls", "fun", "extern"]

end Language

section PatternHelpers

/-- Maximal run of an identifier `[a-zA-Z_][a-zA-Z0-9_]*`; returns the
captured word and the rest.  A shorter capture is never viable at the
places this is used because the following pattern part cannot start with
a word character, so the greedy (maximal) capture is exact. -/
def takeIdRun : List Char → Option (List Char × List Char)
  | [] => none
  | c :: cs =>
      if isIdStart c then
        some (c :: cs.takeWhile isWordChar, cs.dropWhile isWordChar)
      else none

/-- Maximal run of `\w+` (`[a-zA-Z0-9_]+`, digits may lead). -/
def takeWordRun : List Char → Option (List Char × List Char)
  | [] => none
  | c :: cs =>
      if isWordChar c then
        some (c :: cs.takeWhile isWordChar, cs.dropWhile isWordChar)
      else none

/-- Maximal run of `[a-zA-Z0-9_.]+` (dotted module path characters). -/
def takePathRun : List Char → Option (List Char × List Char)
  | [] => none
  | c :: cs =>
      if isPathChar c then
        some (c :: cs.takeWhile isPathChar, cs.dropWhile isPathChar)
      else none

/-- `\s+`: at least one whitespace character, consumed greedily. -/
def skipWs1 : List Char → Option (List Char)
  | [] => none
  | c :: cs => if jsSpace c then some (cs.dropWhile jsSpace) else none

/-- `\s*`. -/
def skipWs (cs : List Char) : List Char :=
  cs.dropWhile jsSpace

/-- Expect a literal string at the head. -/
def expectLit (lit : List Char) (cs : List Char) : Option (List Char) :=
  if startsWithSub cs lit then some (cs.drop lit.length) else none

/-- Expect one specific character at the head. -/
def expectChar (c : Char) : List Char → Option (List Char)
  | [] => none
  | d :: cs => if d = c then some cs else none

/-- The optional `(pub\s+)?` group: consume `pub` plus at least one
whitespace when present; otherwise leave the input unchanged (the
backtracking into "group not taken" can never succeed when `pub` plus
whitespace is present and the rest fails, because the following keyword
never starts with `pub`). -/
def stripPub (cs : List Char) : Bool × List Char :=
  match cs with
  | 'p' :: 'u' :: 'b' :: rest =>
      match rest with
      | c :: _ => if jsSpace c then (true, rest.dropWhile jsSpace) else (false, cs)
      | [] => (false, cs)
  | _ => (false, cs)

/-- Index of the last occurrence of character `c`, if any. -/
def lastIndexOfChar (cs : List Char) (c : Char) : Option Nat :=
  go cs 0 none
where
  go : List Char → Nat → Option Nat → Option Nat
    | [], _, acc => acc
    | d :: rest, i, acc => go rest (i + 1) (if d = c then some i else acc)

/-- Characters before the first occurrence of `c` (`str.split(c)[0]`). -/
def takeUntilChar (c : Char) (cs : List Char) : List Char :=
  cs.takeWhile (fun d => ¬ d = c)

theorem length_dropWhile_le_self (p : Char → Bool) (l : List Char) :
    (l.dropWhile p).length ≤ l.length := by
  induction l with
  | nil => simp
  | cons c cs ih =>
      by_cases h : p c
      · simp only [List.dropWhile, h]
        exact ih.trans (Nat.le_succ _)
      · simp [List.dropWhile, h]

/-- Worker for `splitOnWsRuns`; every step consumes at least one
character, so fuel `cs.length` is enough. -/
def splitOnWsRunsGo : Nat → List Char → List Char → List (List Char)
  | 0, cs, acc => [(acc.reverse ++ cs)]
  | _ + 1, [], acc => [acc.reverse]
  | fuel + 1, c :: rest, acc =>
      if jsSpace c then
        acc.reverse :: splitOnWsRunsGo fuel (rest.dropWhile jsSpace) []
      else splitOnWsRunsGo fuel rest (c :: acc)

/-- Split on maximal whitespace runs (`str.split(/\s+/)` on a trimmed
string). -/
def splitOnWsRuns (cs : List Char) : List (List Char) :=
  splitOnWsRunsGo cs.length cs []

end PatternHelpers

section IndexerPatterns

/-- `letPattern = /^(pub\s+)?let\s+([a-zA-Z_][a-zA-Z0-9_]*)\s*=/`. -/
def matchLetPat (line : List Char) : Option (Bool × List Char) := do
  let (isPub, r0) := stripPub line
  let r1 ← expectLit "let".data r0
  let r2 ← skipWs1 r1
  let (name, r3) ← takeIdRun r2
  let _ ← expectChar '=' (skipWs r3)
  pure (isPub, name)

/-- `constPatternUntyped = /^(pub\s+)?const\s+([a-zA-Z_][a-zA-Z0-9_]*)\s*=/`. -/
def matchConstUntypedPat (line : List Char) : Option (Bool × List Char) := do
  let (isPub, r0) := stripPub line
  let r1 ← expectLit "const".data r0
  let r2 ← skipWs1 r1
  let (name, r3) ← takeIdRun r2
  let _ ← expectChar '=' (skipWs r3)
  pure (isPub, name)

/-- `constPatternTyped =
/^(pub\s+)?const\s+(?:[a-zA-Z_][a-zA-Z0-9_]*)\s+([a-zA-Z_][a-zA-Z0-9_]*)\s*=/`. -/
def matchConstTypedPat (line : List Char) : Option (Bool × List Char) := do
  let (isPub, r0) := stripPub line
  let r1 ← expectLit "const".data r0
  let r2 ← skipWs1 r1
  let (_, r3) ← takeIdRun r2
  let r4 ← skipWs1 r3
  let (name, r5) ← takeIdRun r4
  let _ ← expectChar '=' (skipWs r5)
  pure (isPub, name)

/-- `typeAliasPattern = /^(pub\s+)?type\s+([a-zA-Z_][a-zA-Z0-9_]*)\s*=/`. -/
def matchTypeAliasPat (line : List Char) : Option (Bool × List Char) := do
  let (isPub, r0) := stripPub line
  let r1 ← expectLit "type".data r0
  let r2 ← skipWs1 r1
  let (name, r3) ← takeIdRun r2
  let _ ← expectChar '=' (skipWs r3)
  pure (isPub, name)

/-- `typeStructStartPattern = /^(pub\s+)?type\s+([a-zA-Z_][a-zA-Z0-9_]*)\s*=\s*\{/`.
Also returns the rest of the line after the match (the source reads
`line.substring(match[0].length)`). -/
def matchTypeStructStartPat (line : List Char) :
    Option (Bool × List Char × List Char) := do
  let (isPub, r0) := stripPub line
  let r1 ← expectLit "type".data r0
  let r2 ← skipWs1 r1
  let (name, r3) ← takeIdRun r2
  let r4 ← expectChar '=' (skipWs r3)
  let r5 ← expectChar '{' (skipWs r4)
  pure (isPub, name, r5)

/-- The greedy `\((.*)\)` tail used by the function and extern patterns:
`(` then everything up to the LAST `)` on the line. -/
def parenGreedyCapture (cs : List Char) : Option (List Char) := do
  let r ← expectChar '(' cs
  let j ← lastIndexOfChar r ')'
  pure (r.take j)

/-- `functionPattern = /^(pub\s+)?fun\s+([a-zA-Z_][a-zA-Z0-9_]*)\s*\((.*)\)/`. -/
def matchFunctionPat (line : List Char) :
    Option (Bool × List Char × List Char) := do
  let (isPub, r0) := stripPub line
  let r1 ← expectLit "fun".data r0
  let r2 ← skipWs1 r1
  let (name, r3) ← takeIdRun r2
  let args ← parenGreedyCapture (skipWs r3)
  pure (isPub, name, args)

/-- `externPattern =
/^(pub\s+)?extern\s*\("[^"]*"\)\s+([a-zA-Z_][a-zA-Z0-9_]*)\s*\((.*)\)/`. -/
def matchExternPat (line : List Char) :
    Option (Bool × List Char × List Char) := do
  let (isPub, r0) := stripPub line
  let r1 ← expectLit "extern".data r0
  let r2 ← expectChar '(' (skipWs r1)
  let r3 ← expectChar '"' r2
  let r4 := r3.dropWhile (fun c => ¬ c = '"')
  let r5 ← expectChar '"' r4
  let r6 ← expectChar ')' r5
  let r7 ← skipWs1 r6
  let (name, r8) ← takeIdRun r7
  let args ← parenGreedyCapture (skipWs r8)
  pure (isPub, name, args)

/-- The optional greedy `(?:\(.*\))?\s*=` tail of the class pattern: when a
`(` is present the regex engine tries the longest `.*` first and backtracks
to earlier `)` positions until `\s*=` matches the remainder. -/
def classParenTail (cs : List Char) : Bool :=
  match cs with
  | '(' :: r =>
      -- candidate close-paren positions, longest capture first
      (List.range r.length).reverse.any (fun j =>
        r.getD j ' ' = ')' && (expectChar '=' (skipWs (r.drop (j + 1)))).isSome)
  | _ => (expectChar '=' (skipWs cs)).isSome

/-- `classPattern = /^(pub\s+)?cls\s+([a-zA-Z_][a-zA-Z0-9_]*)\s*(?:\(.*\))?\s*=/`. -/
def matchClassPat (line : List Char) : Option (Bool × List Char) := do
  let (isPub, r0) := stripPub line
  let r1 ← expectLit "cls".data r0
  let r2 ← skipWs1 r1
  let (name, r3) ← takeIdRun r2
  if classParenTail (skipWs r3) then pure (isPub, name) else none

/-- `importModulePattern =
/^import\s+([a-zA-Z0-9_.]+)(?:\s+as\s+([a-zA-Z0-9_]+))?\s*;?$/`.
The path class excludes whitespace, so only the optional `as` group
backtracks (group taken first, then skipped). -/
def matchImportModulePat (line : List Char) :
    Option (List Char × Option (List Char)) := do
  let r1 ← expectLit "import".data line
  let r2 ← skipWs1 r1
  let (path, r3) ← takePathRun r2
  let tailEnd : List Char → Bool := fun cs =>
    -- `\s*;?$`
    let cs := skipWs cs
    match cs with
    | [] => true
    | [';'] => true
    | _ => false
  let withAs : Option (List Char) := do
    let a1 ← skipWs1 r3
    let a2 ← expectLit "as".data a1
    let a3 ← skipWs1 a2
    let (w, a4) ← takeWordRun a3
    if tailEnd a4 then pure w else none
  match withAs with
  | some w => pure (path, some w)
  | none => if tailEnd r3 then pure (path, none) else none

/-- `importWildcardPattern = /^import\s+([a-zA-Z0-9_.]+)\.\*\s*;?$/`.
The greedy path run swallows the `.` before `*`; backtracking gives it
back, so the effective path is the maximal run minus a trailing dot,
followed directly by `*`. -/
def matchImportWildcardPat (line : List Char) : Option (List Char) := do
  let r1 ← expectLit "import".data line
  let r2 ← skipWs1 r1
  let (run, r3) ← takePathRun r2
  match run.getLast? with
  | some '.' =>
      let path := run.dropLast
      if path.isEmpty then none
      else
        let r4 ← expectChar '*' r3
        let r5 := skipWs r4
        match r5 with
        | [] => pure path
        | [';'] => pure path
        | _ => none
  | _ => none

/-- `importFromPattern = /^import\s+from\s+([a-zA-Z0-9_.]+)\s*{(.*)}/`:
greedy capture up to the LAST `}` of the line. -/
def matchImportFromPat (line : List Char) :
    Option (List Char × List Char) := do
  let r1 ← expectLit "import".data line
  let r2 ← skipWs1 r1
  let r3 ← expectLit "from".data r2
  let r4 ← skipWs1 r3
  let (path, r5) ← takePathRun r4
  let r6 ← expectChar '{' (skipWs r5)
  let j ← lastIndexOfChar r6 '}'
  pure (path, r6.take j)

/-- `importFromStartPattern = /^import\s+from\s+([a-zA-Z0-9_.]+)\s*\{/`;
also returns the rest of the line after the match. -/
def matchImportFromStartPat (line : List Char) :
    Option (List Char × List Char) := do
  let r1 ← expectLit "import".data line
  let r2 ← skipWs1 r1
  let r3 ← expectLit "from".data r2
  let r4 ← skipWs1 r3
  let (path, r5) ← takePathRun r4
  let r6 ← expectChar '{' (skipWs r5)
  pure (path, r6)

/-- `/^([a-zA-Z0-9_]+)\s+as\s+([a-zA-Z0-9_]+)$/` applied to each trimmed
piece of an import list (`indexer.ts`). -/
def matchNameAsAliasPat (p : List Char) : Option (List Char × List Char) := do
  let (w1, r1) ← takeWordRun p
  let r2 ← skipWs1 r1
  let r3 ← expectLit "as".data r2
  let r4 ← skipWs1 r3
  let (w2, r5) ← takeWordRun r4
  if r5.isEmpty then pure (w1, w2) else none

/-- Parse the comma-separated name list of a selective import
(`content.split(',')`, trim, optional `name as alias`). -/
def parseImportNames (content : List Char) : List (String × Option String) :=
  (splitOnChar ',' content).foldr
    (fun part acc =>
      let p := jsTrim part
      if p.isEmpty then acc
      else
        match matchNameAsAliasPat p with
        | some (n, a) => (String.mk n, some (String.mk a)) :: acc
        | none => (String.mk p, none) :: acc)
    []

/-- One step of `varPatternGlobal =
/([a-zA-Z_][a-zA-Z0-9_]*)\s+([a-zA-Z_][a-zA-Z0-9_]*)\s*(?:;|=)/g` at a
fixed position: the two identifier captures and the full match `m[0]`.
No shorter capture can succeed (each following pattern part rejects word
characters), so maximal runs are exact. -/
def varPatOnce (cs : List Char) : Option (List Char × List Char × List Char) := do
  let (t, r1) ← takeIdRun cs
  let r2 ← skipWs1 r1
  let (n, r3) ← takeIdRun r2
  let r4 := skipWs r3
  match r4 with
  | c :: _ =>
      if c = ';' || c = '=' then
        let m0len := t.length + (r1.length - r2.length) + n.length +
          (r3.length - r4.length) + 1
        pure (t, n, cs.take m0len)
      else none
  | [] => none

/-- `Array.from(line.matchAll(varPatternGlobal))`: leftmost matches, the
scan resuming right after each match (`lastIndex` semantics), advancing a
single character after a failed position. -/
def varMatchAll (fuel : Nat) (cs : List Char) (pos : Nat) :
    List (Nat × List Char × List Char × List Char) :=
  match fuel with
  | 0 => []
  | fuel + 1 =>
      match cs with
      | [] => []
      | _ :: rest =>
          match varPatOnce cs with
          | some (t, n, m0) =>
              (pos, t, n, m0) :: varMatchAll fuel (cs.drop m0.length) (pos + m0.length)
          | none => varMatchAll fuel rest (pos + 1)

end IndexerPatterns

section IndexerCore

/-- The multi-line accumulation loop shared by the struct and the
multi-line-import branches:
`while (!endFound && currentLine + 1 < lines.length) { currentLine++;
content += " " + nextLine; if (nextLine.includes('}')) endFound = true; }`.
Returns the accumulated extra content and the list of consumed lines. -/
def accumulateBody : Bool → List (List Char) → List Char × List (List Char)
  | true, _ => ([], [])
  | false, [] => ([], [])
  | false, l :: ls =>
      let (c, consumed) := accumulateBody (containsChar l '}') ls
      (' ' :: (l ++ c), l :: consumed)

/-- `Indexer.update`'s per-line dispatch (the body of the `for` loop in
`language.ts`, lines 75–303) on the trimmed non-empty `line`.  `i` is the
line number, `rest` the raw lines after line `i` (for multi-line
constructs).  Returns the symbols and imports contributed by this line
and the number of additional lines consumed (`i` is advanced past them). -/
def processLine (uri : String) (i : Nat) (line : List Char)
    (rest : List (List Char)) :
    List JinkSymbol × List JinkImport × Nat :=
  -- Imports
  match matchImportModulePat line with
  | some (path, al) =>
      ([], [{ modulePath := String.mk path, alias? := al.map String.mk,
              isWildcard := false, names := [],
              range := ⟨i, 0, i, line.length⟩ }], 0)
  | none =>
  match matchImportWildcardPat line with
  | some path =>
      ([], [{ modulePath := String.mk path, alias? := none,
              isWildcard := true, names := [],
              range := ⟨i, 0, i, line.length⟩ }], 0)
  | none =>
  match matchImportFromPat line with
  | some (path, content) =>
      ([], [{ modulePath := String.mk path, alias? := none,
              isWildcard := false, names := parseImportNames content,
              range := ⟨i, 0, i, line.length⟩ }], 0)
  | none =>
  match matchImportFromStartPat line with
  | some (path, afterBrace) =>
      let endFound := containsChar line '}'
      let (extra, consumed) := accumulateBody endFound rest
      let content := takeUntilChar '}' (afterBrace ++ extra)
      let currentLine := i + consumed.length
      let lastLen := ((consumed.getLast?).map List.length).getD line.length
      ([], [{ modulePath := String.mk path, alias? := none,
              isWildcard := false, names := parseImportNames content,
              range := ⟨i, 0, currentLine, lastLen⟩ }], consumed.length)
  | none =>
  -- Symbols
  match matchLetPat line with
  | some (isPub, name) =>
      (match indexOfSub line name with
       | some startChar =>
           [JinkSymbol.mk (String.mk name) .variableKind uri
              ⟨i, startChar, i, startChar + name.length⟩ isPub none none]
       | none => [], [], 0)
  | none =>
  match matchConstUntypedPat line with
  | some (isPub, name) =>
      (match indexOfSub line name with
       | some startChar =>
           [JinkSymbol.mk (String.mk name) .constantKind uri
              ⟨i, startChar, i, startChar + name.length⟩ isPub none none]
       | none => [], [], 0)
  | none =>
  match matchConstTypedPat line with
  | some (isPub, name) =>
      (match indexOfSub line name with
       | some startChar =>
           [JinkSymbol.mk (String.mk name) .constantKind uri
              ⟨i, startChar, i, startChar + name.length⟩ isPub none none]
       | none => [], [], 0)
  | none =>
  match matchTypeStructStartPat line with
  | some (isPub, name, afterBrace) =>
      let endFound := containsChar line '}'
      let (extra, consumed) := accumulateBody endFound rest
      let body := takeUntilChar '}' (afterBrace ++ extra)
      let children := (splitOnChar ',' body).foldr
        (fun field acc =>
          match splitOnChar ':' field with
          | [fnRaw, _] =>
              let fieldName := jsTrim fnRaw
              if fieldName.isEmpty then acc
              else JinkSymbol.mk (String.mk fieldName) .fieldKind uri
                     ⟨i, 0, i, 0⟩ true none none :: acc
          | _ => acc) []
      let currentLine := i + consumed.length
      -- the source reassigns `i = currentLine` BEFORE building the range,
      -- so the symbol's range uses the last consumed line's number with a
      -- character offset from the first line
      (match indexOfSub line name with
       | some startChar =>
           [JinkSymbol.mk (String.mk name) .classKind uri
              ⟨currentLine, startChar, currentLine, startChar + name.length⟩
              isPub (some children) none]
       | none => [], [], consumed.length)
  | none =>
  match matchTypeAliasPat line with
  | some (isPub, name) =>
      (match indexOfSub line name with
       | some startChar =>
           [JinkSymbol.mk (String.mk name) .classKind uri
              ⟨i, startChar, i, startChar + name.length⟩ isPub none none]
       | none => [], [], 0)
  | none =>
  match matchFunctionPat line with
  | some (isPub, name, argsStr) =>
      let parameters :=
        if (jsTrim argsStr).isEmpty then []
        else (splitOnChar ',' argsStr).foldr
          (fun arg acc =>
            match splitOnWsRuns (jsTrim arg) with
            | t :: n :: _ => (String.mk n, String.mk t) :: acc
            | _ => acc) []
      (match indexOfSub line name with
       | some startChar =>
           [JinkSymbol.mk (String.mk name) .functionKind uri
              ⟨i, startChar, i, startChar + name.length⟩ isPub none
              (some parameters)]
       | none => [], [], 0)
  | none =>
  match matchExternPat line with
  | some (isPub, name, argsStr) =>
      let parameters :=
        if (jsTrim argsStr).isEmpty then []
        else (splitOnChar ',' argsStr).foldr
          (fun arg acc =>
            match splitOnWsRuns (jsTrim arg) with
            | t :: n :: _ => (String.mk n, String.mk t) :: acc
            | _ => acc) []
      (match indexOfSub line name with
       | some startChar =>
           [JinkSymbol.mk (String.mk name) .functionKind uri
              ⟨i, startChar, i, startChar + name.length⟩ isPub none
              (some parameters)]
       | none => [], [], 0)
  | none =>
  match matchClassPat line with
  | some (isPub, name) =>
      (match indexOfSub line name with
       | some startChar =>
           [JinkSymbol.mk (String.mk name) .classKind uri
              ⟨i, startChar, i, startChar + name.length⟩ isPub none none]
       | none => [], [], 0)
  | none =>
  -- Check for variables (including multiple per line)
  let varSyms := (varMatchAll line.length line 0).foldr
    (fun m acc =>
      let (matchStart, t, n, m0) := m
      if jinkKeywords.contains (String.mk t) then acc
      else
        let textAfterType := m0.drop t.length
        let nameStartInMatch :=
          match indexOfSub textAfterType n with
          | some j => t.length + j
          | none => t.length - 1   -- JS `indexOf` = -1 (never happens here)
        let absoluteStart := matchStart + nameStartInMatch
        JinkSymbol.mk (String.mk n) .variableKind uri
          ⟨i, absoluteStart, i, absoluteStart + n.length⟩ false none none :: acc)
    []
  (varSyms, [], 0)

/-- The `for` loop of `Indexer.update`, scanning lines from index `i`;
the fuel starts at `lines.length` and each step advances `i` by at least
one, so the fuel never runs out on the initial call. -/
def updateGo (uri : String) (lines : List (List Char)) :
    Nat → Nat → List JinkSymbol × List JinkImport
  | 0, _ => ([], [])
  | fuel + 1, i =>
      if i < lines.length then
        let raw := lines.getD i []
        let line := jsTrim raw
        if line.isEmpty then updateGo uri lines fuel (i + 1)
        else
          let (s, m, skip) := processLine uri i line (lines.drop (i + 1))
          let (s', m') := updateGo uri lines fuel (i + 1 + skip)
          (s ++ s', m ++ m')
      else ([], [])

/-- The symbols and imports `Indexer.update` extracts from `text`. -/
def extractFromText (uri : String) (text : String) :
    List JinkSymbol × List JinkImport :=
  let lines := splitLines text.data
  updateGo uri lines lines.length 0

/-- The workspace index: `symbolsByName`, `symbolsByUri`, `importsByUri`. -/
structure Indexer where
  symbolsByName : List (String × List JinkSymbol)
  symbolsByUri : List (String × List JinkSymbol)
  importsByUri : List (String × List JinkImport)

def Indexer.empty : Indexer := ⟨[], [], []⟩

/-- The by-name pruning loop of `Indexer.remove`. -/
def removeSymsByName (uri : String) (syms : List JinkSymbol)
    (byName : List (String × List JinkSymbol)) :
    List (String × List JinkSymbol) :=
  syms.foldl
    (fun m sym =>
      match mget m sym.name with
      | none => m
      | some list =>
          let newList := list.filter (fun s => ¬ s.uri = uri)
          if newList.isEmpty then mdel m sym.name
          else mset m sym.name newList)
    byName

/-- `Indexer.remove(uri)`. -/
def Indexer.remove (idx : Indexer) (uri : String) : Indexer :=
  match mget idx.symbolsByUri uri with
  | some symbols =>
      { symbolsByName := removeSymsByName uri symbols idx.symbolsByName,
        symbolsByUri := mdel idx.symbolsByUri uri,
        importsByUri := mdel idx.importsByUri uri }
  | none =>
      { idx with importsByUri := mdel idx.importsByUri uri }

/-- The by-name insertion loop at the end of `Indexer.update`. -/
def insertSymsByName (syms : List JinkSymbol)
    (byName : List (String × List JinkSymbol)) :
    List (String × List JinkSymbol) :=
  syms.foldl (fun m sym => mset m sym.name (mgetD m sym.name ++ [sym])) byName

/-- `Indexer.update(uri, text)`: remove the document's previous entries,
re-extract, store both by-document lists, then append each symbol to the
by-name map. -/
def Indexer.update (idx : Indexer) (uri : String) (text : String) : Indexer :=
  let idx0 := idx.remove uri
  let (newSymbols, newImports) := extractFromText uri text
  { symbolsByName := insertSymsByName newSymbols idx0.symbolsByName,
    symbolsByUri := mset idx0.symbolsByUri uri newSymbols,
    importsByUri := mset idx0.importsByUri uri newImports }

/-- `getImports`. -/
def Indexer.getImports (idx : Indexer) (uri : String) : List JinkImport :=
  mgetD idx.importsByUri uri

/-- `getDefinition`. -/
def Indexer.getDefinition (idx : Indexer) (name : String) : List JinkSymbol :=
  mgetD idx.symbolsByName name

/-- `getAllSymbols`. -/
def Indexer.getAllSymbols (idx : Indexer) : List JinkSymbol :=
  (idx.symbolsByName.map (·.2)).flatten

/-- `getKnownUris`. -/
def Indexer.getKnownUris (idx : Indexer) : List String :=
  mkeys idx.symbolsByUri

/-- `getSymbolsInUri`. -/
def Indexer.getSymbolsInUri (idx : Indexer) (uri : String) : List JinkSymbol :=
  mgetD idx.symbolsByUri uri

end IndexerCore

section ServerStrip

/-- Pass 1 of comment stripping: `text.replace(/\/\/.*$/gm, spaces)`.
Within each newline-separated segment, everything from the first `//` to
the segment end is blanked (multiline `$` matches before a line
terminator, so a `\r` ending the segment stays). -/
def stripLineComments (cs : List Char) : List Char :=
  let segs := splitOnChar '\n' cs
  let blank := fun (l : List Char) =>
    let (body, cr) :=
      match l.getLast? with
      | some '\r' => (l.dropLast, ['\r'])
      | _ => (l, [])
    match indexOfSub body "//".data with
    | some j => body.take j ++ spacesList (body.length - j) ++ cr
    | none => l
  List.intercalate "\n".data (segs.map blank)

/-- Find the first `*/` and split there (the lazy `[\s\S]*?` of the block
comment pattern). -/
def splitAtCloseComment : List Char → Option (List Char × List Char)
  | [] => none
  | '*' :: '/' :: rest => some ([], rest)
  | c :: rest => (splitAtCloseComment rest).map (fun p => (c :: p.1, p.2))

/-- Pass 2 of comment stripping: `replace(/\/\*[\s\S]*?\*\//g, spaces)`.
Each step consumes at least one character, so fuel `cs.length` is enough. -/
def stripBlockGo : Nat → List Char → List Char
  | 0, cs => cs
  | fuel + 1, cs =>
      match cs with
      | '/' :: '*' :: rest =>
          (match splitAtCloseComment rest with
           | some (inside, after) =>
               spacesList (inside.length + 4) ++ stripBlockGo fuel after
           | none => '/' :: stripBlockGo fuel ('*' :: rest))
      | c :: rest => c :: stripBlockGo fuel rest
      | [] => []

/-- The comment stripping at the top of `validateTextDocument`. -/
def stripComments (cs : List Char) : List Char :=
  let p1 := stripLineComments cs
  stripBlockGo p1.length p1

end ServerStrip

section ServerImportLoop

/-- A diagnostic severity (`DiagnosticSeverity.Error` / `.Warning`). -/
inductive DiagSeverity where
  | error
  | warning
deriving DecidableEq, Repr

/-- An LSP diagnostic as `validateTextDocument` produces it
(`source: 'jink'` is constant and omitted). -/
structure Diag where
  severity : DiagSeverity
  range : JRange
  message : String
deriving DecidableEq, Repr

/-- An entry of `importedNames` (name plus the range where it appears). -/
structure ImpName where
  name : String
  range : JRange
deriving DecidableEq, Repr

/-- The module resolver: `knownUris.find(u => u.endsWith(expectedSuffix))`
with `expectedSuffix = importPath.replace(/\./g, '/') + '.jk'`. -/
def resolveModuleUri (knownUris : List String) (path : List Char) :
    Option String :=
  knownUris.find? (fun u => endsWithSub u.data (dotsToSlashes path ++ ".jk".data))

/-- `/^import\s+from\s+([a-zA-Z0-9_.]+)\s*(?:{(.*)})?/` (server.ts): the
brace group is optional; when `{` is present with a later `}`, the capture
runs greedily to the LAST `}`. -/
def vImportFromMatch (line : List Char) :
    Option (List Char × Option (List Char)) := do
  let r1 ← expectLit "import".data line
  let r2 ← skipWs1 r1
  let r3 ← expectLit "from".data r2
  let r4 ← skipWs1 r3
  let (path, r5) ← takePathRun r4
  match expectChar '{' (skipWs r5) with
  | some r7 =>
      match lastIndexOfChar r7 '}' with
      | some j => pure (path, some (r7.take j))
      | none => pure (path, none)
  | none => pure (path, none)

/-- `/^import\s+([a-zA-Z0-9_.]+)\.\*\s*;?/` (server.ts; no `$`, so no tail
requirement). -/
def vWildcardImportMatch (line : List Char) : Option (List Char) := do
  let r1 ← expectLit "import".data line
  let r2 ← skipWs1 r1
  let (run, r3) ← takePathRun r2
  match run.getLast? with
  | some '.' =>
      let path := run.dropLast
      if path.isEmpty then none
      else do
        let _ ← expectChar '*' r3
        pure path
  | _ => none

/-- `/^import\s+([a-zA-Z0-9_.]+)(?:\s+as\s+([a-zA-Z0-9_]+))?\s*;?/`
(server.ts; no `$`). -/
def vSimpleImportMatch (line : List Char) :
    Option (List Char × Option (List Char)) := do
  let r1 ← expectLit "import".data line
  let r2 ← skipWs1 r1
  let (path, r3) ← takePathRun r2
  let al : Option (List Char) := do
    let a1 ← skipWs1 r3
    let a2 ← expectLit "as".data a1
    let a3 ← skipWs1 a2
    let (w, _) ← takeWordRun a3
    pure w
  pure (path, al)

/-- The unanchored `/as\s+([a-zA-Z0-9_]+)/` used for the alias of a
`import from m` line without braces: leftmost occurrence. -/
def findAsAliasMatch : List Char → Option (List Char)
  | [] => none
  | c :: rest =>
      match (do
        let r1 ← expectLit "as".data (c :: rest)
        let r2 ← skipWs1 r1
        let (w, _) ← takeWordRun r2
        pure w : Option (List Char)) with
      | some w => some w
      | none => findAsAliasMatch rest

/-- One split step of `symStr.trim().split(/\s+as\s+/)`: the leftmost
separator (maximal whitespace, `as`, at least one whitespace) and the
pieces before/after it. -/
def findAsSepGo : List Char → List Char → Option (List Char × List Char)
  | [], _ => none
  | c :: rest, acc =>
      if jsSpace c then
        match (do
          let r2 ← expectLit "as".data ((c :: rest).dropWhile jsSpace)
          let r3 ← skipWs1 r2
          pure r3 : Option (List Char)) with
        | some r3 => some (acc.reverse, r3)
        | none => findAsSepGo rest (c :: acc)
      else findAsSepGo rest (c :: acc)

/-- `str.split(/\s+as\s+/)` (only applied to trimmed pieces). -/
def splitAsSep (fuel : Nat) (cs : List Char) : List (List Char) :=
  match fuel with
  | 0 => [cs]
  | fuel + 1 =>
      match findAsSepGo cs [] with
      | some (before, after) => before :: splitAsSep fuel after
      | none => [cs]

/-- Scan lines `k, k+1, …` (`n` of them) for the first one containing
`pat`; `(line, column)` of the hit (the multi-line-import diagnostics'
"search in the lines we processed"). -/
def findInLinesGo (lines : List (List Char)) (pat : List Char) :
    Nat → Nat → Option (Nat × Nat)
  | _, 0 => none
  | k, n + 1 =>
      match indexOfSub (lines.getD k []) pat with
      | some idx => some (k, idx)
      | none => findInLinesGo lines pat (k + 1) n

/-- Count of whole-word occurrences:
`cleanText.match(new RegExp("\\b" + name + "\\b", 'g'))`.  The imported
names counted consist of word characters only, so matches cannot overlap
and the global count equals the per-position count. -/
def wholeWordCount (cs pat : List Char) : Nat :=
  go cs none
where
  go : List Char → Option Char → Nat
    | [], _ => 0
    | c :: rest, prev =>
        let okStart := match prev with
          | none => true
          | some p => ¬ isWordChar p
        let okEnd := match (c :: rest).drop pat.length with
          | [] => true
          | d :: _ => ¬ isWordChar d
        (if okStart && startsWithSub (c :: rest) pat && okEnd then 1 else 0) +
          go rest (some c)

/-- The part of the single-line selective-import branch that reports each
named symbol and records it for the unused check (server.ts 417–453). -/
def selectiveNamesStep (line : List Char) (i : Nat)
    (moduleSymbols : List JinkSymbol) (path : List Char)
    (content : List Char) : List Diag × List ImpName :=
  let braceIdx := (indexOfSub line "\x7b".data).getD 0
  (splitOnChar ',' content).foldl
    (fun acc symStr =>
      let parts := splitAsSep (jsTrim symStr).length (jsTrim symStr)
      let symName := parts.headD []
      if symName.isEmpty then acc
      else
        let aliasPiece : Option (List Char) :=
          match parts with
          | _ :: p :: _ => some p
          | _ => none
        match moduleSymbols.find? (fun s => s.name = String.mk symName) with
        | none =>
            let symStart := (indexOfSubFrom line symName braceIdx).getD 0
            (acc.1 ++ [⟨.error,
               ⟨i, symStart, i, symStart + symName.length⟩,
               "Symbol '" ++ String.mk symName ++ "' not found in module '" ++
                 String.mk path ++ "'."⟩], acc.2)
        | some symbol =>
            let d1 :=
              if ¬ symbol.isPublic then
                let symStart := (indexOfSubFrom line symName braceIdx).getD 0
                [Diag.mk .error ⟨i, symStart, i, symStart + symName.length⟩
                  ("Symbol '" ++ String.mk symName ++
                   "' is not public in module '" ++ String.mk path ++ "'.")]
              else []
            let searchName :=
              match aliasPiece with
              | some p => if p.isEmpty then symName else p
              | none => symName
            let n1 :=
              match indexOfSubFrom line searchName braceIdx with
              | some symStart =>
                  [ImpName.mk (String.mk searchName)
                    ⟨i, symStart, i, symStart + searchName.length⟩]
              | none => []
            (acc.1 ++ d1, acc.2 ++ n1))
    ([], [])

/-- The multi-line selective-import branch's per-symbol loop
(server.ts 316–389): diagnostics located by searching the consumed lines. -/
def multilineNamesStep (lines : List (List Char)) (i currentLine : Nat)
    (moduleSymbols : List JinkSymbol) (path : List Char)
    (content : List Char) : List Diag × List ImpName :=
  let span := currentLine + 1 - i
  (splitOnChar ',' content).foldl
    (fun acc symStr =>
      let parts := splitAsSep (jsTrim symStr).length (jsTrim symStr)
      let symName := parts.headD []
      if symName.isEmpty then acc
      else
        match moduleSymbols.find? (fun s => s.name = String.mk symName) with
        | none =>
            (match findInLinesGo lines symName i span with
             | some (fl, fc) =>
                 (acc.1 ++ [⟨.error, ⟨fl, fc, fl, fc + symName.length⟩,
                    "Symbol '" ++ String.mk symName ++
                    "' not found in module '" ++ String.mk path ++ "'."⟩],
                  acc.2)
             | none => acc)
        | some symbol =>
            let d1 :=
              if ¬ symbol.isPublic then
                match findInLinesGo lines symName i span with
                | some (fl, fc) =>
                    [Diag.mk .error ⟨fl, fc, fl, fc + symName.length⟩
                      ("Symbol '" ++ String.mk symName ++
                       "' is not public in module '" ++ String.mk path ++ "'.")]
                | none => []
              else []
            let searchName :=
              match parts with
              | _ :: p :: _ => if p.isEmpty then symName else p
              | _ => symName
            let n1 :=
              match findInLinesGo lines searchName i span with
              | some (fl, fc) =>
                  [ImpName.mk (String.mk searchName)
                    ⟨fl, fc, fl, fc + searchName.length⟩]
              | none => []
            (acc.1 ++ d1, acc.2 ++ n1))
    ([], [])

/-- The wildcard-import branch of the import loop (server.ts 465–480):
only a module-existence check, nothing is recorded for the unused-import
check. -/
def wildcardBranch (knownUris : List String) (i : Nat) (line : List Char)
    (path : List Char) : List Diag × List ImpName :=
  match resolveModuleUri knownUris path with
  | none =>
      let start := (indexOfSub line path).getD 0
      ([⟨.error, ⟨i, start, i, start + path.length⟩,
         "Module '" ++ String.mk path ++ "' not found."⟩], [])
  | some _ => ([], [])

/-- One iteration of the import loop of `validateTextDocument`
(server.ts 274–513): the branch dispatch over the four import patterns.
Returns this line's diagnostics, its `importedNames` entries and how many
extra lines it consumed. -/
def importLineStep (idx : Indexer) (lines : List (List Char)) (i : Nat)
    (line : List Char) : List Diag × List ImpName × Nat :=
  let knownUris := idx.getKnownUris
  match matchImportFromStartPat line, containsChar line '}' with
  | some (path, afterBrace), false =>
      -- multi-line selective import
      let (extra, consumed) := accumulateBody false (lines.drop (i + 1))
      let content := takeUntilChar '}' (afterBrace ++ extra)
      let currentLine := i + consumed.length
      (match resolveModuleUri knownUris path with
       | none =>
           let start := (indexOfSub line path).getD 0
           ([⟨.error, ⟨i, start, i, start + path.length⟩,
              "Module '" ++ String.mk path ++ "' not found."⟩], [],
            consumed.length)
       | some moduleUri =>
           let moduleSymbols := idx.getSymbolsInUri moduleUri
           let (d, n) :=
             multilineNamesStep lines i currentLine moduleSymbols path content
           (d, n, consumed.length))
  | _, _ =>
  match vImportFromMatch line with
  | some (path, content?) =>
      (match resolveModuleUri knownUris path with
       | none =>
           let start := (indexOfSub line path).getD 0
           ([⟨.error, ⟨i, start, i, start + path.length⟩,
              "Module '" ++ String.mk path ++ "' not found."⟩], [], 0)
       | some moduleUri =>
           match content? with
           | some content =>
               if content.isEmpty then
                 -- `if (importedSymbolsStr)` is false for the empty capture
                 (match findAsAliasMatch line with
                  | some al =>
                      let start := (indexOfSub line al).getD 0
                      ([], [⟨String.mk al, ⟨i, start, i, start + al.length⟩⟩], 0)
                  | none => ([], [], 0))
               else
                 let moduleSymbols := idx.getSymbolsInUri moduleUri
                 let (d, n) := selectiveNamesStep line i moduleSymbols path content
                 (d, n, 0)
           | none =>
               (match findAsAliasMatch line with
                | some al =>
                    let start := (indexOfSub line al).getD 0
                    ([], [⟨String.mk al, ⟨i, start, i, start + al.length⟩⟩], 0)
                | none => ([], [], 0)))
  | none =>
  match vWildcardImportMatch line with
  | some path =>
      let (d, n) := wildcardBranch knownUris i line path
      (d, n, 0)
  | none =>
  match vSimpleImportMatch line with
  | some (path, al?) =>
      (match resolveModuleUri knownUris path with
       | none =>
           let start := (indexOfSub line path).getD 0
           ([⟨.error, ⟨i, start, i, start + path.length⟩,
              "Module '" ++ String.mk path ++ "' not found."⟩], [], 0)
       | some _ =>
           match al? with
           | some al =>
               let start := (indexOfSub line al).getD 0
               ([], [⟨String.mk al, ⟨i, start, i, start + al.length⟩⟩], 0)
           | none =>
               let parts := splitOnChar '.' path
               let name := parts.getLastD []
               let start := (indexOfSub line path).getD 0 +
                 ((lastIndexOfSub path name).getD 0)
               ([], [⟨String.mk name, ⟨i, start, i, start + name.length⟩⟩], 0))
  | none => ([], [], 0)

/-- The import loop over all lines; fuel `lines.length` suffices because
each step advances at least one line. -/
def importLoopGo (idx : Indexer) (lines : List (List Char)) :
    Nat → Nat → List Diag × List ImpName
  | 0, _ => ([], [])
  | fuel + 1, i =>
      if i < lines.length then
        let line := lines.getD i []
        let (d, n, skip) := importLineStep idx lines i line
        let (d', n') := importLoopGo idx lines fuel (i + 1 + skip)
        (d ++ d', n ++ n')
      else ([], [])

/-- The unused-import check (server.ts 516–529): exactly one whole-word
occurrence in the comment-stripped text (the import line itself) yields a
warning. -/
def unusedWarnings (cleanText : List Char) (names : List ImpName) :
    List Diag :=
  names.foldr
    (fun imp acc =>
      if wholeWordCount cleanText imp.name.data = 1 then
        Diag.mk .warning imp.range ("Import '" ++ imp.name ++ "' is unused.")
          :: acc
      else acc) []

end ServerImportLoop

section ServerScope

/-- `knownRoots` (server.ts 558–571): for each known URI, the path segment
right after the first `src` segment (when `src` is present and not last). -/
def knownRootsOf (knownUris : List String) : List String :=
  knownUris.foldr
    (fun u acc =>
      let parts := (splitOnChar '/' u.data).map String.mk
      match parts.findIdx? (· = "src") with
      | some j =>
          if j + 1 < parts.length then parts.getD (j + 1) "" :: acc else acc
      | none => acc)
    []

/-- The seeded global scope (server.ts 535–571): builtins, the document's
own indexed symbols, imported local names (alias over name; a module alias;
the last dotted segment for a bare non-wildcard import), and the known
namespace roots.  Scopes are name sets; a list models them by membership. -/
def globalScopeInit (uri : String) (idx : Indexer) : List String :=
  jinkBuiltins
    ++ (idx.getSymbolsInUri uri).map (·.name)
    ++ ((idx.getImports uri).foldr
        (fun imp acc =>
          (imp.names.map (fun n => n.2.getD n.1))
            ++ (match imp.alias? with
                | some a => [a]
                | none =>
                    if imp.names.isEmpty && ¬ imp.isWildcard then
                      [String.mk ((splitOnChar '.' imp.modulePath.data).getLastD [])]
                    else [])
            ++ acc)
        [])
    ++ knownRootsOf idx.getKnownUris

/-- Token kinds of the validation scanner (the five alternatives of
`tokenRegex`). -/
inductive TokKind where
  | strLit
  | kw
  | ident
  | arrow
  | punct
deriving DecidableEq, Repr

/-- A scanned token with its match index in the clean text. -/
structure Tok where
  kind : TokKind
  val : List Char
  idx : Nat
deriving DecidableEq, Repr

/-- The string-literal alternative `"(?:[^"\\]|\\.)*"` after its opening
quote: number of characters up to and including the closing quote; `none`
when it cannot match (unterminated, or a backslash before a line
terminator, which `\\.` rejects). -/
def scanStrBody : List Char → Option Nat
  | [] => none
  | '"' :: _ => some 1
  | '\\' :: [] => none
  | '\\' :: d :: rest =>
      if d = '\n' ∨ d = '\r' then none
      else (scanStrBody rest).map (· + 2)
  | _ :: rest => (scanStrBody rest).map (· + 1)

/-- The punctuation class `[{}();=.,:\[\]+\-*/%<>&|!^~]`. -/
def punctChars : List Char := "\x7b\x7d();=.,:[]+-*/%<>&|!^~".data

/-- The `\b` left-boundary test for the word alternatives: the previous
character (if any) is not a word character. -/
def boundaryOk (prev : Option Char) : Bool :=
  match prev with
  | none => true
  | some p => ¬ isWordChar p

/-- The scanner loop (`tokenRegex.exec` with `g`): leftmost matches, the
alternatives tried in order; characters matching no alternative (digits,
whitespace, stray quotes) are skipped.  `prev` is the previously consumed
character, giving the `\b` left-boundary test for words; the right
boundary is automatic at a maximal word run. -/
def tokenizeGo : Nat → List Char → Nat → Option Char → List Tok
  | 0, _, _, _ => []
  | fuel + 1, cs, pos, prev =>
      match cs with
      | [] => []
      | c :: rest =>
          if c = '"' then
            match scanStrBody rest with
            | some n =>
                Tok.mk .strLit (cs.take (n + 1)) pos ::
                  tokenizeGo fuel (rest.drop n) (pos + n + 1) (some '"')
            | none => tokenizeGo fuel rest (pos + 1) (some c)
          else if isIdStart c && boundaryOk prev then
            let word := c :: rest.takeWhile isWordChar
            let rest' := rest.dropWhile isWordChar
            let kind :=
              if jinkKeywords.contains (String.mk word) then TokKind.kw
              else TokKind.ident
            Tok.mk kind word pos ::
              tokenizeGo fuel rest' (pos + word.length) (some (word.getLastD c))
          else if c = '-' ∧ rest.headD ' ' = '>' then
            Tok.mk .arrow "->".data pos ::
              tokenizeGo fuel (rest.drop 1) (pos + 2) (some '>')
          else if punctChars.contains c then
            Tok.mk .punct [c] pos :: tokenizeGo fuel rest (pos + 1) (some c)
          else tokenizeGo fuel rest (pos + 1) (some c)

/-- Tokenize a clean text (fuel `length` suffices: every step consumes at
least one character). -/
def tokenize (cs : List Char) : List Tok :=
  tokenizeGo cs.length cs 0 none

/-- The context states (`enum State` in server.ts). -/
inductive VSt where
  | NORMAL
  | DECL_EXPECTED
  | FUN_ARGS
  | TYPE_DEF
  | STRUCT_BODY
  | OBJECT_LITERAL
  | IMPORT_STMT
  | RETURN_TYPE
  | EXTERN_DECL
  | EXTERN_ABI
  | ENUM_BODY
deriving DecidableEq, Repr

/-- The mutable state of the scope-analysis loop.  The TS arrays grow at
the end; here the HEAD of `scopeStack`/`stateStack` is the innermost
scope / current state. -/
structure VState where
  scopeStack : List (List String)
  stateStack : List VSt
  lastToken : List Char
  lastDeclKeyword : List Char
  lastTokenWasKeyword : Bool
  expectingFunArgs : Bool
  pendingArgs : List (List Char)
  diags : List Diag

/-- `scopeStack[scopeStack.length - 1].add(name)`. -/
def scopeAddInnermost (stk : List (List String)) (n : String) :
    List (List String) :=
  match stk with
  | [] => []
  | s :: ss => (n :: s) :: ss

/-- The inner-to-outer scope search of the usage check. -/
def scopeStackHas (stk : List (List String)) (n : String) : Bool :=
  stk.any (fun s => s.contains n)

/-- The wildcard-import fallback of the usage check (server.ts 845–860):
a public symbol with this name in some wildcard-imported resolvable
module. -/
def wildcardFoundB (imports : List JinkImport) (knownUris : List String)
    (idx : Indexer) (name : String) : Bool :=
  imports.any (fun imp =>
    imp.isWildcard &&
      (match resolveModuleUri knownUris imp.modulePath.data with
       | some modUri =>
           (idx.getSymbolsInUri modUri).any
             (fun s => s.name = name && s.isPublic)
       | none => false))

/-- `TextDocument.positionAt` for an LF text: (line, character). -/
def positionAt (cs : List Char) (idx : Nat) : Nat × Nat :=
  let pre := cs.take idx
  let line := pre.countP (fun c => c = '\n')
  match lastIndexOfChar pre '\n' with
  | some j => (line, idx - (j + 1))
  | none => (line, idx)

/-- `/^[a-zA-Z_][a-zA-Z0-9_]*$/.test(lastToken)`. -/
def isIdWordTest : List Char → Bool
  | [] => false
  | c :: r => isIdStart c && r.all isWordChar

/-- One iteration of the token loop of `validateTextDocument`
(server.ts 607–875), transcribing the `if` chains over the token kinds.
`currentState` is captured once at the top, exactly as in the source. -/
def stepTok (cleanText : List Char) (imports : List JinkImport)
    (knownUris : List String) (idx : Indexer) (st : VState) (t : Tok) :
    VState :=
  let currentState := st.stateStack.headD .NORMAL
  match t.kind with
  | .strLit =>
      { st with lastToken := "string".data, lastTokenWasKeyword := false,
                expectingFunArgs := false }
  | .arrow =>
      { st with stateStack := .RETURN_TYPE :: st.stateStack,
                lastToken := "->".data, lastTokenWasKeyword := false }
  | .kw =>
      let kwS := String.mk t.val
      let lastDecl :=
        if jinkDeclKeywords.contains kwS then t.val else st.lastDeclKeyword
      let stack :=
        if kwS = "import" then VSt.IMPORT_STMT :: st.stateStack
        else if kwS = "extern" then VSt.EXTERN_DECL :: st.stateStack
        else st.stateStack
      { st with lastDeclKeyword := lastDecl,
                expectingFunArgs := (kwS = "fun" || kwS = "cls"),
                stateStack := stack, lastToken := t.val,
                lastTokenWasKeyword := true }
  | .punct =>
      let c := t.val.headD ' '
      if c = '{' then
        let stack1 :=
          if currentState = .RETURN_TYPE then st.stateStack.tail
          else st.stateStack
        if currentState = .IMPORT_STMT then
          -- push IMPORT_STMT again, no scope; `continue` skips the
          -- lastToken update
          { st with expectingFunArgs := false,
                    stateStack := VSt.IMPORT_STMT :: stack1 }
        else
          let newScope := st.pendingArgs.map String.mk
          let newState :=
            if st.lastToken = "type".data then VSt.STRUCT_BODY
            else if st.lastDeclKeyword = "enum".data &&
                st.lastToken = "=".data then VSt.ENUM_BODY
            else if st.lastToken = "=".data || st.lastToken = "(".data ||
                st.lastToken = ",".data || st.lastToken = ":".data ||
                st.lastToken = "return".data || st.lastToken = "[".data then
              VSt.OBJECT_LITERAL
            else VSt.NORMAL
          { st with expectingFunArgs := false,
                    scopeStack := newScope :: st.scopeStack,
                    pendingArgs := [],
                    stateStack := newState :: stack1,
                    lastToken := t.val, lastTokenWasKeyword := false }
      else if c = '}' then
        if currentState = .IMPORT_STMT then
          -- pop the state only; `continue` skips the lastToken update
          { st with expectingFunArgs := false,
                    stateStack := st.stateStack.tail }
        else
          let scopes :=
            if st.scopeStack.length > 1 then st.scopeStack.tail
            else st.scopeStack
          let states :=
            if st.stateStack.length > 1 then st.stateStack.tail
            else st.stateStack
          { st with expectingFunArgs := false, scopeStack := scopes,
                    stateStack := states, lastToken := t.val,
                    lastTokenWasKeyword := false }
      else if c = '(' then
        if st.expectingFunArgs then
          { st with stateStack := VSt.FUN_ARGS :: st.stateStack,
                    expectingFunArgs := false, lastToken := t.val,
                    lastTokenWasKeyword := false }
        else if currentState = .EXTERN_DECL then
          if st.lastToken = "extern".data then
            { st with stateStack := VSt.EXTERN_ABI :: st.stateStack,
                      lastToken := t.val, lastTokenWasKeyword := false }
          else
            { st with stateStack := VSt.FUN_ARGS :: st.stateStack,
                      lastToken := t.val, lastTokenWasKeyword := false }
        else
          { st with expectingFunArgs := false, lastToken := t.val,
                    lastTokenWasKeyword := false }
      else if c = ')' then
        let states :=
          if currentState = .FUN_ARGS || currentState = .EXTERN_ABI then
            st.stateStack.tail
          else st.stateStack
        { st with expectingFunArgs := false, stateStack := states,
                  lastToken := t.val, lastTokenWasKeyword := false }
      else if c = ';' then
        let stack1 :=
          if currentState = .IMPORT_STMT || currentState = .RETURN_TYPE then
            st.stateStack.tail
          else st.stateStack
        let stack2 :=
          if stack1.headD .NORMAL = .EXTERN_DECL then stack1.tail else stack1
        { st with stateStack := stack2, pendingArgs := [],
                  expectingFunArgs := false, lastToken := t.val,
                  lastTokenWasKeyword := false }
      else
        { st with expectingFunArgs := false, lastToken := t.val,
                  lastTokenWasKeyword := false }
  | .ident =>
      let id := t.val
      let index := t.idx
      if index > 0 ∧ cleanText.getD (index - 1) ' ' = '.' ∧
          ¬ (index ≥ 3 ∧ (cleanText.drop (index - 3)).take 3 = "...".data) then
        -- member access: never validated, never declared
        { st with lastToken := id, lastTokenWasKeyword := false,
                  expectingFunArgs := false }
      else if currentState = .IMPORT_STMT ∨ currentState = .RETURN_TYPE ∨
          currentState = .EXTERN_ABI ∨ currentState = .ENUM_BODY then
        { st with lastToken := id, lastTokenWasKeyword := false }
      else if jinkDeclKeywords.contains (String.mk st.lastToken) then
        -- declaration after a declaration keyword (expectingFunArgs kept)
        { st with scopeStack := scopeAddInnermost st.scopeStack (String.mk id),
                  lastToken := id, lastTokenWasKeyword := false }
      else if ¬ st.lastTokenWasKeyword ∧ isIdWordTest st.lastToken then
        -- `Type name` style declaration
        { st with scopeStack := scopeAddInnermost st.scopeStack (String.mk id),
                  lastToken := id, lastTokenWasKeyword := false }
      else if currentState = .EXTERN_DECL then
        { st with scopeStack := scopeAddInnermost st.scopeStack (String.mk id),
                  lastToken := id, lastTokenWasKeyword := false }
      else if currentState = .FUN_ARGS ∧
          ¬ (((cleanText.take index).reverse.dropWhile jsSpace).headD ' ' = ':') then
        -- parameter declaration, buffered for the next scope
        { st with expectingFunArgs := false,
                  pendingArgs := st.pendingArgs ++ [id],
                  lastToken := id, lastTokenWasKeyword := false }
      else if (currentState = .STRUCT_BODY ∨ currentState = .OBJECT_LITERAL) ∧
          (((cleanText.drop (index + id.length)).dropWhile jsSpace).headD ' '
            = ':') then
        -- field / object key label
        { st with expectingFunArgs := false, lastToken := id,
                  lastTokenWasKeyword := false }
      else
        let found := scopeStackHas st.scopeStack (String.mk id) ||
          wildcardFoundB imports knownUris idx (String.mk id)
        let newDiags :=
          if found then st.diags
          else
            let pos := positionAt cleanText index
            st.diags ++ [⟨.error, ⟨pos.1, pos.2, pos.1, pos.2 + id.length⟩,
              "Undefined symbol '" ++ String.mk id ++ "'."⟩]
        { st with expectingFunArgs := false, diags := newDiags,
                  lastToken := id, lastTokenWasKeyword := false }

/-- `validateTextDocument` (server.ts 258–878): comment stripping, import
validation, unused-import warnings, then the scope-analysis token loop,
over the current indexer snapshot. -/
def validateTextDocument (uri : String) (text : String) (idx : Indexer) :
    List Diag :=
  let cleanText := stripComments text.data
  let lines := splitLines cleanText
  let (diags1, importedNames) := importLoopGo idx lines lines.length 0
  let diags2 := diags1 ++ unusedWarnings cleanText importedNames
  let imports := idx.getImports uri
  let knownUris := idx.getKnownUris
  let st0 : VState :=
    { scopeStack := [globalScopeInit uri idx],
      stateStack := [.NORMAL],
      lastToken := [], lastDeclKeyword := [],
      lastTokenWasKeyword := false, expectingFunArgs := false,
      pendingArgs := [], diags := [] }
  let stF := (tokenize cleanText).foldl
    (stepTok cleanText imports knownUris idx) st0
  diags2 ++ stF.diags

end ServerScope

section DefinitionResolver

/-- An LSP `Location`. -/
structure JLocation where
  uri : String
  range : JRange
deriving DecidableEq, Repr

/-- All `/[a-zA-Z0-9_]+/g` word runs of a line with their start indices. -/
def wordRunsGo : Nat → List Char → Nat → List (Nat × List Char)
  | 0, _, _ => []
  | _ + 1, [], _ => []
  | fuel + 1, c :: rest, pos =>
      if isWordChar c then
        let w := c :: rest.takeWhile isWordChar
        (pos, w) :: wordRunsGo fuel (rest.dropWhile isWordChar) (pos + w.length)
      else wordRunsGo fuel rest (pos + 1)

def wordRuns (cs : List Char) : List (Nat × List Char) :=
  wordRunsGo cs.length cs 0

/-- `getWordAtPosition` (server.ts 1007–1018): the first word run whose
inclusive span contains the character. -/
def getWordAtPosition (line : List Char) (character : Nat) :
    Option (List Char) :=
  ((wordRuns line).find?
    (fun r => r.1 ≤ character && character ≤ r.1 + r.2.length)).map (·.2)

/-- The exact-start scan of the property-access step (server.ts
1096–1108): the first containing word run whose text equals `word`
(containing runs are unique, the extra equality check mirrors the
source). -/
def defExactStart (line : List Char) (character : Nat) (word : List Char) :
    Option Nat :=
  ((wordRuns line).find?
    (fun r => r.1 ≤ character && character ≤ r.1 + r.2.length &&
      r.2 == word)).map (·.1)

/-- `/^import\s+(?:from\s+)?([a-zA-Z0-9_.]+)/` (onDefinition): the
optional `from` group is taken when a path can follow it, otherwise
skipped. -/
def vDefImportMatch (line : List Char) : Option (List Char) := do
  let r1 ← expectLit "import".data line
  let r2 ← skipWs1 r1
  match (do
    let a ← expectLit "from".data r2
    let b ← skipWs1 a
    let (p, _) ← takePathRun b
    pure p : Option (List Char)) with
  | some p => pure p
  | none => do
      let (p, _) ← takePathRun r2
      pure p

/-- Step (a) of the definition resolver: cursor inside an import's
module-path span resolves to the start of the module document. -/
def importPathStage (line : List Char) (character : Nat) (idx : Indexer) :
    Option JLocation :=
  match vDefImportMatch line with
  | some path =>
      let start := (indexOfSub line path).getD 0
      if start ≤ character ∧ character ≤ start + path.length then
        match resolveModuleUri idx.getKnownUris path with
        | some u => some ⟨u, ⟨0, 0, 0, 0⟩⟩
        | none => none
      else none
  | none => none

/-- Step (2) of the definition resolver: the `for (const imp of imports)`
loop with its early returns — a named-import hit (pre-alias name looked up
in the resolved module), else a wildcard hit (first public symbol with the
word's name). -/
def defImportsLoop (idx : Indexer) (knownUris : List String) (word : String) :
    List JinkImport → Option JLocation
  | [] => none
  | imp :: rest =>
      let named : Option JLocation :=
        match imp.names.find? (fun n => (n.2.getD n.1) = word) with
        | some namedImport =>
            (match resolveModuleUri knownUris imp.modulePath.data with
             | some moduleUri =>
                 match (idx.getSymbolsInUri moduleUri).find?
                     (fun s => s.name = namedImport.1) with
                 | some target => some ⟨target.uri, target.range⟩
                 | none => none
             | none => none)
        | none => none
      match named with
      | some l => some l
      | none =>
          let wild : Option JLocation :=
            if imp.isWildcard then
              match resolveModuleUri knownUris imp.modulePath.data with
              | some moduleUri =>
                  match (idx.getSymbolsInUri moduleUri).find?
                      (fun s => s.name = word && s.isPublic) with
                  | some target => some ⟨target.uri, target.range⟩
                  | none => none
              | none => none
            else none
          match wild with
          | some l => some l
          | none => defImportsLoop idx knownUris word rest

/-- Step (3): qualified access `X.word` where `X` matches an import's
alias, bare module path, or the module path's last dotted segment. -/
def propertyAccessStage (line : List Char) (character : Nat)
    (word : List Char) (imports : List JinkImport) (idx : Indexer)
    (knownUris : List String) : Option JLocation :=
  match defExactStart line character word with
  | some es =>
      if 0 < es ∧ line.getD (es - 1) ' ' = '.' then
        let prevWord :=
          if es ≥ 2 then getWordAtPosition line (es - 2) else none
        match prevWord with
        | some pw =>
            (match imports.find? (fun i =>
                i.alias? = some (String.mk pw) ∨
                (i.alias? = none ∧ i.modulePath = String.mk pw) ∨
                (i.alias? = none ∧
                  endsWithSub i.modulePath.data ('.' :: pw))) with
             | some moduleImport =>
                 (match resolveModuleUri knownUris moduleImport.modulePath.data with
                  | some moduleUri =>
                      match (idx.getSymbolsInUri moduleUri).find?
                          (fun s => s.name = String.mk word && s.isPublic) with
                      | some target => some ⟨target.uri, target.range⟩
                      | none => none
                  | none => none)
             | none => none)
        | none => none
      else none
  | none => none

/-- Step (4): the word itself is an import's alias or default (last
dotted segment) name: navigate to the import statement. -/
def importNameStage (docUri : String) (word : List Char)
    (imports : List JinkImport) : Option JLocation :=
  match imports.find? (fun i =>
      i.alias? = some (String.mk word) ∨
      (i.alias? = none ∧
        String.mk ((splitOnChar '.' i.modulePath.data).getLastD []) =
          String.mk word)) with
  | some matchingImport => some ⟨docUri, matchingImport.range⟩
  | none => none

/-- The early-return chain of `connection.onDefinition` (server.ts
1020–1157): every `return` of the source carries a singleton or the empty
list, so the chain is an `Option JLocation`. -/
def defResolve (docUri : String) (text : String) (pos : Nat × Nat)
    (idx : Indexer) : Option JLocation :=
  let lines := splitLines text.data
  let line := lines.getD pos.1 []
  let knownUris := idx.getKnownUris
  match importPathStage line pos.2 idx with
    | some l => some l
    | none =>
        match getWordAtPosition line pos.2 with
        | none => none
        | some word =>
            match (idx.getSymbolsInUri docUri).find?
                (fun s => s.name = String.mk word) with
            | some localDef => some ⟨localDef.uri, localDef.range⟩
            | none =>
                let imports := idx.getImports docUri
                match defImportsLoop idx knownUris (String.mk word) imports with
                | some l => some l
                | none =>
                    match propertyAccessStage line pos.2 word imports idx
                        knownUris with
                    | some l => some l
                    | none => importNameStage docUri word imports

/-- `connection.onDefinition` for an open document: the resolved location
as a zero- or one-element list. -/
def onDefinition (docUri : String) (text : String) (pos : Nat × Nat)
    (idx : Indexer) : List JLocation :=
  match defResolve docUri text pos idx with
  | some l => [l]
  | none => []

end DefinitionResolver

section TokenizerLemmas

/-- Every token whose text is `return` is a keyword token: the word
alternative checks the keyword list first and `return` is a keyword. -/
def noReturnIdent (ts : List Tok) : Bool :=
  ts.all (fun t => !(t.kind == TokKind.ident && t.val == "return".data))

theorem tokenizeGo_no_return_mem (fuel : Nat) :
    ∀ cs pos prev t, t ∈ tokenizeGo fuel cs pos prev →
      t.kind = TokKind.ident → ¬ t.val = "return".data := by
  induction fuel with
  | zero => intro cs pos prev t ht; cases ht
  | succ fuel ih =>
      intro cs pos prev t ht hk
      cases cs with
      | nil => cases ht
      | cons c rest =>
          simp only [tokenizeGo] at ht
          by_cases h1 : c = '"'
          · rw [if_pos h1] at ht
            cases hs : scanStrBody rest with
            | some n =>
                rw [hs] at ht
                rcases List.mem_cons.mp ht with rfl | ht'
                · cases hk
                · exact ih _ _ _ _ ht' hk
            | none =>
                rw [hs] at ht
                exact ih _ _ _ _ ht hk
          · rw [if_neg h1] at ht
            by_cases h2 : (isIdStart c && boundaryOk prev) = true
            · rw [if_pos h2] at ht
              by_cases h3 : jinkKeywords.contains
                  (String.mk (c :: rest.takeWhile isWordChar)) = true
              · rw [if_pos h3] at ht
                rcases List.mem_cons.mp ht with rfl | ht'
                · cases hk
                · exact ih _ _ _ _ ht' hk
              · rw [if_neg h3] at ht
                rcases List.mem_cons.mp ht with rfl | ht'
                · intro hw
                  simp only [Tok.mk.injEq] at hw
                  rw [show (c :: rest.takeWhile isWordChar) = "return".data from hw] at h3
                  exact h3 (by decide)
                · exact ih _ _ _ _ ht' hk
            · rw [if_neg h2] at ht
              by_cases h4 : (c = '-' ∧ rest.headD ' ' = '>')
              · rw [if_pos h4] at ht
                rcases List.mem_cons.mp ht with rfl | ht'
                · cases hk
                · exact ih _ _ _ _ ht' hk
              · rw [if_neg h4] at ht
                by_cases h5 : punctChars.contains c = true
                · rw [if_pos h5] at ht
                  rcases List.mem_cons.mp ht with rfl | ht'
                  · cases hk
                  · exact ih _ _ _ _ ht' hk
                · rw [if_neg h5] at ht
                  exact ih _ _ _ _ ht hk

theorem tokenize_no_return_ident (text : List Char) :
    noReturnIdent (tokenize text) = true := by
  have h := tokenizeGo_no_return_mem text.length text 0 none
  simp only [noReturnIdent, List.all_eq_true]
  intro t ht
  by_cases hk : t.kind = TokKind.ident
  · have := h t ht hk
    simp [hk, this]
  · simp [hk]

end TokenizerLemmas

section ClaimC1

def c1uri : String := "file:///proj/a.jk"
def c1text : String := "pub fun add(int a, int b) \x7b return a + b; \x7d"
def c1idx : Indexer := Indexer.empty.update c1uri c1text

/-- The symbol the indexer is expected to record for `c1text`. -/
def c1AddSymbol : JinkSymbol :=
  JinkSymbol.mk "add" .functionKind c1uri ⟨0, 8, 0, 11⟩ true none
    (some [("a", "int"), ("b", "int")])

/-- Claim C1: for a document whose text is exactly
`pub fun add(int a, int b) { return a + b; }`, the indexer holds exactly
one symbol — named `add`, of function kind, public, with the ordered
parameter list [(a,int),(b,int)] — both in the by-document entry and in
the by-name map; validation emits no "undefined symbol" diagnostic for
`a` or for `b`; and the tokenizer never classifies the keyword `return`
as an identifier, on any text. -/
theorem C1_pub_fun_add_symbol_and_no_undefined :
    (c1idx.getSymbolsInUri c1uri = [c1AddSymbol] ∧
     c1idx.getDefinition "add" = [c1AddSymbol]) ∧
    (validateTextDocument c1uri c1text c1idx).all
      (fun d => !(d.message == "Undefined symbol 'a'." ||
                  d.message == "Undefined symbol 'b'.")) = true ∧
    (∀ text : List Char, noReturnIdent (tokenize text) = true) := by
  exact ⟨⟨rfl, rfl⟩, rfl, tokenize_no_return_ident⟩

end ClaimC1

section ClaimC9

/-- Claim C9: for every document, cursor position and index snapshot, the
definition resolver returns at most one location (each return site of the
source is a singleton or the empty list, modelled by `defResolve`). -/
theorem C9_definition_at_most_one_location
    (docUri : String) (text : String) (pos : Nat × Nat) (idx : Indexer) :
    (onDefinition docUri text pos idx).length ≤ 1 := by
  unfold onDefinition
  cases defResolve docUri text pos idx <;> simp

end ClaimC9

section ClaimC7

def c7uri : String := "file:///proj/c7.jk"
def c7text : String := "let a = 1;\na.b;\n"
def c7idx : Indexer := Indexer.empty.update c7uri c7text

/-- A sample loop state for the C7 witness. -/
def c7state : VState :=
  { scopeStack := [["a"]], stateStack := [.NORMAL],
    lastToken := ";".data, lastDeclKeyword := [],
    lastTokenWasKeyword := false, expectingFunArgs := false,
    pendingArgs := [], diags := [] }

/-- Claim C7: an identifier occurrence immediately preceded by `.` that is
not part of a `...` marker is member access: the processing step emits no
diagnostic, changes no scope (and buffers no parameter); in particular, on
`a.b`, `b` is never reported undefined even though no symbol `b` exists. -/
theorem C7_member_access_never_validated
    (cleanText : List Char) (imports : List JinkImport)
    (knownUris : List String) (idx : Indexer) (st : VState) (t : Tok)
    (hk : t.kind = TokKind.ident)
    (hpos : 0 < t.idx)
    (hdot : cleanText.getD (t.idx - 1) ' ' = '.')
    (hrest : ¬ (t.idx ≥ 3 ∧ (cleanText.drop (t.idx - 3)).take 3 = "...".data)) :
    ((stepTok cleanText imports knownUris idx st t).diags = st.diags ∧
     (stepTok cleanText imports knownUris idx st t).scopeStack = st.scopeStack ∧
     (stepTok cleanText imports knownUris idx st t).pendingArgs = st.pendingArgs) ∧
    (validateTextDocument c7uri c7text c7idx).all
      (fun d => !(d.message == "Undefined symbol 'b'.")) = true := by
  refine ⟨?_, rfl⟩
  obtain ⟨k, v, i⟩ := t
  simp only [Tok.kind] at hk
  subst hk
  simp only [Tok.idx] at hpos hdot hrest
  simp only [stepTok, Tok.val, Tok.idx]
  rw [if_pos ⟨hpos, hdot, hrest⟩]
  exact ⟨rfl, rfl, rfl⟩

/-- Witness for C7 at the concrete text `a.b`, token `b` at index 2. -/
theorem C7_member_access_witness :
    ((stepTok "a.b".data [] [] Indexer.empty c7state
        (Tok.mk .ident "b".data 2)).diags = c7state.diags ∧
     (stepTok "a.b".data [] [] Indexer.empty c7state
        (Tok.mk .ident "b".data 2)).scopeStack = c7state.scopeStack ∧
     (stepTok "a.b".data [] [] Indexer.empty c7state
        (Tok.mk .ident "b".data 2)).pendingArgs = c7state.pendingArgs) ∧
    (validateTextDocument c7uri c7text c7idx).all
      (fun d => !(d.message == "Undefined symbol 'b'.")) = true :=
  C7_member_access_never_validated "a.b".data [] [] Indexer.empty c7state
    (Tok.mk .ident "b".data 2) rfl (by decide) (by decide) (by decide)

end ClaimC7

section ClaimC5

theorem match_option_bool {o : Option String} {f : String → Bool} :
    (match o with | some u => f u | none => false) = true ↔
      ∃ u, o = some u ∧ f u = true := by
  cases o <;> simp

def c5uri : String := "file:///proj/d.jk"
def c5text : String := "import m.*;\npb;\npv;\n"
def c5idx : Indexer :=
  (Indexer.empty.update "lib/m.jk" "pub let pb = 1;\nlet pv = 2;\n").update
    c5uri c5text

/-- Claim C5: bare-name usage resolution consults, beyond the scope stack,
exactly the PUBLIC symbols of wildcard-imported resolvable modules — the
resolution succeeds iff the name is in some scope or is a public symbol of
some wildcard-imported module (so a private symbol never resolves).
Concretely, with `lib/m.jk` defining public `pb` and private `pv` and a
document importing `m.*`, the bare use of `pv` is reported undefined and
the bare use of `pb` is not. -/
theorem C5_wildcard_resolution_public_only :
    (∀ (scopes : List (List String)) (imports : List JinkImport)
        (knownUris : List String) (idx : Indexer) (name : String),
      (scopeStackHas scopes name ||
        wildcardFoundB imports knownUris idx name) = true ↔
        ((∃ s ∈ scopes, name ∈ s) ∨
         ∃ imp ∈ imports, imp.isWildcard = true ∧
           ∃ u, resolveModuleUri knownUris imp.modulePath.data = some u ∧
             ∃ sym ∈ idx.getSymbolsInUri u,
               sym.name = name ∧ sym.isPublic = true)) ∧
    (validateTextDocument c5uri c5text c5idx).any
      (fun d => d.message == "Undefined symbol 'pv'.") = true ∧
    (validateTextDocument c5uri c5text c5idx).all
      (fun d => !(d.message == "Undefined symbol 'pb'.")) = true := by
  refine ⟨?_, rfl, rfl⟩
  intro scopes imports knownUris idx name
  simp only [scopeStackHas, wildcardFoundB, Bool.or_eq_true, List.any_eq_true]
  constructor
  · rintro (⟨s, hs, hc⟩ | ⟨imp, himp, hcond⟩)
    · exact Or.inl ⟨s, hs, (List.elem_iff).mp hc⟩
    · rw [Bool.and_eq_true] at hcond
      obtain ⟨hw, hmatch⟩ := hcond
      obtain ⟨u, hu, hf⟩ := match_option_bool.mp hmatch
      rw [List.any_eq_true] at hf
      obtain ⟨sym, hsym, hp⟩ := hf
      rw [Bool.and_eq_true, decide_eq_true_eq] at hp
      exact Or.inr ⟨imp, himp, hw, u, hu, sym, hsym, hp.1, hp.2⟩
  · rintro (⟨s, hs, hc⟩ | ⟨imp, himp, hw, u, hu, sym, hsym, hn, hp⟩)
    · exact Or.inl ⟨s, hs, (List.elem_iff).mpr hc⟩
    · refine Or.inr ⟨imp, himp, ?_⟩
      rw [Bool.and_eq_true]
      refine ⟨hw, match_option_bool.mpr ⟨u, hu, ?_⟩⟩
      rw [List.any_eq_true]
      exact ⟨sym, hsym, by rw [Bool.and_eq_true, decide_eq_true_eq]; exact ⟨hn, hp⟩⟩

end ClaimC5

section ClaimC6

def c6mathlibUri : String := "lib/mathlib.jk"
def c6uri : String := "file:///proj/d.jk"
def c6text : String := "import from mathlib \x7b sqrt \x7d\n"
def c6idx : Indexer :=
  (Indexer.empty.update c6mathlibUri "let sqrt = 5;\n").update c6uri c6text

/-- Claim C6: with a known document ending in the `mathlib` suffix that
defines `sqrt` as a private symbol, validating
`import from mathlib { sqrt }` emits a "not public" error for `sqrt`;
and since `sqrt` occurs nowhere else in the comment-stripped text
(whole-word count 1, the import line itself), it additionally emits an
"unused import" warning for `sqrt`. -/
theorem C6_private_selective_import_errors :
    resolveModuleUri c6idx.getKnownUris "mathlib".data = some c6mathlibUri ∧
    (c6idx.getSymbolsInUri c6mathlibUri).any
      (fun s => s.name == "sqrt" && !s.isPublic) = true ∧
    wholeWordCount (stripComments c6text.data) "sqrt".data = 1 ∧
    (validateTextDocument c6uri c6text c6idx).any
      (fun d => d.severity == DiagSeverity.error &&
        d.message == "Symbol 'sqrt' is not public in module 'mathlib'.") = true ∧
    (validateTextDocument c6uri c6text c6idx).any
      (fun d => d.severity == DiagSeverity.warning &&
        d.message == "Import 'sqrt' is unused.") = true := by
  exact ⟨rfl, rfl, rfl, rfl, rfl⟩

end ClaimC6

section ClaimC10

def c10uri : String := "file:///proj/d.jk"
def c10text : String := "import m.*;\n"
def c10idx : Indexer :=
  (Indexer.empty.update "lib/m.jk" "pub let zz = 1;\n").update c10uri c10text

/-- Claim C10: a line handled by the wildcard-import branch contributes no
entry to `importedNames` (the unused-import candidate set), so no "unused
import" warning can arise from it; concretely, a document whose only
content is `import m.*;` (resolvable module, none of its names used)
validates with no diagnostics at all. -/
theorem C10_wildcard_import_never_unused
    (idx : Indexer) (lines : List (List Char)) (i : Nat) (line : List Char)
    (path : List Char)
    (hstart : matchImportFromStartPat line = none)
    (hfrom : vImportFromMatch line = none)
    (hw : vWildcardImportMatch line = some path) :
    (importLineStep idx lines i line).2.1 = [] ∧
    validateTextDocument c10uri c10text c10idx = [] := by
  refine ⟨?_, rfl⟩
  unfold importLineStep
  rw [hstart]
  cases hc : containsChar line '}' <;>
    (rw [hfrom, hw]
     cases hres : resolveModuleUri idx.getKnownUris path <;>
       simp [hres, wildcardBranch])

/-- Witness for C10 at the concrete line `import m.*;`. -/
theorem C10_wildcard_import_witness :
    (importLineStep c10idx ["import m.*;".data] 0 "import m.*;".data).2.1
      = [] ∧
    validateTextDocument c10uri c10text c10idx = [] :=
  C10_wildcard_import_never_unused c10idx ["import m.*;".data] 0
    "import m.*;".data "m".data (by decide) (by decide) (by decide)

end ClaimC10

section ClaimC8

def c8docUri : String := "file:///proj/d.jk"
def c8docText : String := "foo;\n"
def c8idx : Indexer :=
  (Indexer.empty.update "lib/foo.jk" "pub let z = 1;\n").update c8docUri
    c8docText

/-- Counterexample to claim C8 as stated: `lib/foo.jk` is a known document
and the bare name `foo` resolves to it as a module (so `foo` is the first
— and only — dotted segment of its module path), yet the seeded global
scope does not contain `foo` (the path has no `src` segment, so the code
adds no namespace root for it), and a top-level bare reference to `foo`
IS reported as an undefined symbol. -/
theorem C8_counterexample_no_src_segment :
    "lib/foo.jk" ∈ c8idx.getKnownUris ∧
    resolveModuleUri c8idx.getKnownUris "foo".data = some "lib/foo.jk" ∧
    "foo" ∉ globalScopeInit c8docUri c8idx ∧
    (validateTextDocument c8docUri c8docText c8idx).any
      (fun d => d.message == "Undefined symbol 'foo'.") = true := by
  exact ⟨by decide, rfl, by decide, rfl⟩

/-- Membership in `knownRootsOf` for a URI whose slash-split path has a
`src` segment followed by at least one more segment. -/
theorem mem_knownRootsOf (uris : List String) (u : String) (j : Nat)
    (hu : u ∈ uris)
    (hj : ((splitOnChar '/' u.data).map String.mk).findIdx? (· = "src")
      = some j)
    (hlt : j + 1 < ((splitOnChar '/' u.data).map String.mk).length) :
    ((splitOnChar '/' u.data).map String.mk).getD (j + 1) ""
      ∈ knownRootsOf uris := by
  induction uris with
  | nil => cases hu
  | cons v rest ih =>
      rcases List.mem_cons.mp hu with rfl | hu'
      · simp only [knownRootsOf, List.foldr_cons, hj]
        rw [if_pos hlt]
        exact List.mem_cons_self _ _
      · have hmem := ih hu'
        simp only [knownRootsOf, List.foldr_cons]
        simp only [knownRootsOf] at hmem
        split
        · split
          · exact List.mem_cons_of_mem _ hmem
          · exact hmem
        · exact hmem

/-- Claim C8 (amended): the seeded global scope contains, for every known
document whose slash-separated path has a `src` segment before its last
segment, the segment immediately following the first `src` segment;
documents without such a `src` segment contribute no namespace root (see
the counterexample). -/
theorem C8_amended_known_roots_from_src (docUri : String) (idx : Indexer)
    (u : String) (j : Nat)
    (hu : u ∈ idx.getKnownUris)
    (hj : ((splitOnChar '/' u.data).map String.mk).findIdx? (· = "src")
      = some j)
    (hlt : j + 1 < ((splitOnChar '/' u.data).map String.mk).length) :
    ((splitOnChar '/' u.data).map String.mk).getD (j + 1) ""
      ∈ globalScopeInit docUri idx := by
  unfold globalScopeInit
  exact List.mem_append.mpr (Or.inr (mem_knownRootsOf _ _ _ hu hj hlt))

def c8srcIdx : Indexer :=
  Indexer.empty.update "proj/src/jink/ext/libc.jk" "pub let z = 1;\n"

/-- Witness for the amended C8: for the known URI
`proj/src/jink/ext/libc.jk` the namespace root `jink` is in the global
scope. -/
theorem C8_amended_witness :
    ((splitOnChar '/' "proj/src/jink/ext/libc.jk".data).map String.mk).getD
      (1 + 1) "" ∈ globalScopeInit "file:///proj/d.jk" c8srcIdx :=
  C8_amended_known_roots_from_src "file:///proj/d.jk" c8srcIdx
    "proj/src/jink/ext/libc.jk" 1 (by decide) (by decide) (by decide)

end ClaimC8

section IndexerAlgebra

/-- The by-document symbol map after `update`: the document's entry is
exactly the fresh extraction; all other entries are untouched. -/
theorem update_symbolsByUri (idx : Indexer) (u t : String) (k : String) :
    mget (idx.update u t).symbolsByUri k =
      if k = u then some (extractFromText u t).1
      else mget idx.symbolsByUri k := by
  unfold Indexer.update
  cases hE : extractFromText u t with
  | mk syms imps =>
      simp only [hE]
      rw [mget_mset]
      by_cases hk : k = u
      · rw [if_pos hk, if_pos hk]
      · rw [if_neg hk, if_neg hk]
        unfold Indexer.remove
        cases hS : mget idx.symbolsByUri u
        · rfl
        · simp only []
          rw [mget_mdel, if_neg hk]

/-- The by-document import map after `update`. -/
theorem update_importsByUri (idx : Indexer) (u t : String) (k : String) :
    mget (idx.update u t).importsByUri k =
      if k = u then some (extractFromText u t).2
      else mget idx.importsByUri k := by
  unfold Indexer.update
  cases hE : extractFromText u t with
  | mk syms imps =>
      simp only [hE]
      rw [mget_mset]
      by_cases hk : k = u
      · rw [if_pos hk, if_pos hk]
      · rw [if_neg hk, if_neg hk]
        unfold Indexer.remove
        cases hS : mget idx.symbolsByUri u
        · simp only []
          rw [mget_mdel, if_neg hk]
        · simp only []
          rw [mget_mdel, if_neg hk]

/-- The by-document symbol map after `remove`. -/
theorem remove_symbolsByUri (idx : Indexer) (u : String) (k : String) :
    mget (idx.remove u).symbolsByUri k =
      if k = u then none else mget idx.symbolsByUri k := by
  unfold Indexer.remove
  cases hS : mget idx.symbolsByUri u
  · simp only []
    by_cases hk : k = u
    · rw [if_pos hk, hk, hS]
    · rw [if_neg hk]
  · simp only []
    rw [mget_mdel]

/-- The by-document import map after `remove`. -/
theorem remove_importsByUri (idx : Indexer) (u : String) (k : String) :
    mget (idx.remove u).importsByUri k =
      if k = u then none else mget idx.importsByUri k := by
  unfold Indexer.remove
  cases hS : mget idx.symbolsByUri u
  · simp only []
    rw [mget_mdel]
  · simp only []
    rw [mget_mdel]

/-- The by-name symbol map after `update` is the insertion over the
removal. -/
theorem update_symbolsByName (idx : Indexer) (u t : String) :
    (idx.update u t).symbolsByName =
      insertSymsByName (extractFromText u t).1 (idx.remove u).symbolsByName := by
  unfold Indexer.update
  cases hE : extractFromText u t with
  | mk syms imps => simp only [hE]

end IndexerAlgebra

section ByNameFormulas

theorem mgetD_eq {β : Type} (m : List (String × List β)) (k : String) :
    mgetD m k = (mget m k).getD [] := rfl

/-- Lookup after the insertion loop: the document's fresh symbols named
`n` are appended, in order, to whatever list was there. -/
theorem insertSymsByName_mget (syms : List JinkSymbol)
    (m : List (String × List JinkSymbol)) (n : String) :
    mget (insertSymsByName syms m) n =
      if (syms.filter (fun s => s.name = n)).isEmpty then mget m n
      else some (mgetD m n ++ syms.filter (fun s => s.name = n)) := by
  induction syms generalizing m with
  | nil => simp [insertSymsByName]
  | cons s rest ih =>
      have hstep : insertSymsByName (s :: rest) m
          = insertSymsByName rest (mset m s.name (mgetD m s.name ++ [s])) := rfl
      rw [hstep, ih]
      by_cases hn : s.name = n
      · subst hn
        have key : ∀ v, mget (mset m s.name v) s.name = some v := fun v => by
          rw [mget_mset, if_pos rfl]
        rw [List.filter_cons_of_pos (by simp)]
        simp only [mgetD_eq, key, Option.getD_some]
        by_cases hre : (rest.filter (fun x => x.name = s.name)).isEmpty
        · rw [if_pos hre]
          rw [List.isEmpty_iff] at hre
          rw [hre]
          simp
        · rw [if_neg hre]
          rw [if_neg (by simp)]
          rw [List.append_assoc, List.singleton_append]
      · have key : mget (mset m s.name (mgetD m s.name ++ [s])) n = mget m n := by
          rw [mget_mset, if_neg (fun h => hn h.symm)]
        rw [List.filter_cons_of_neg (by simp [hn])]
        simp only [mgetD_eq] at key ⊢
        simp only [key]

/-- Lookup after the pruning loop of `remove`: when `syms` contains a
symbol named `n`, the stored list is filtered by owner (the key deleted
when the filter empties); otherwise the entry is untouched. -/
theorem removeSymsByName_mget (u : String) (syms : List JinkSymbol)
    (m : List (String × List JinkSymbol)) (n : String) :
    mget (removeSymsByName u syms m) n =
      if (syms.filter (fun s => s.name = n)).isEmpty then mget m n
      else
        match mget m n with
        | none => none
        | some l =>
            if (l.filter (fun s => ¬ s.uri = u)).isEmpty then none
            else some (l.filter (fun s => ¬ s.uri = u)) := by
  induction syms generalizing m with
  | nil => simp [removeSymsByName]
  | cons s rest ih =>
      have hstep : removeSymsByName u (s :: rest) m
          = removeSymsByName u rest
              (match mget m s.name with
               | none => m
               | some list =>
                   if (list.filter (fun x => ¬ x.uri = u)).isEmpty then
                     mdel m s.name
                   else mset m s.name (list.filter (fun x => ¬ x.uri = u))) := rfl
      rw [hstep, ih]
      have hidem : ∀ l : List JinkSymbol,
          ((l.filter (fun x => ¬ x.uri = u)).filter (fun x => ¬ x.uri = u))
            = l.filter (fun x => ¬ x.uri = u) := fun l =>
        List.filter_eq_self.mpr (fun a ha => (List.mem_filter.mp ha).2)
      by_cases hn : s.name = n
      · subst hn
        have hstepname : mget
            (match mget m s.name with
             | none => m
             | some list =>
                 if (list.filter (fun x => ¬ x.uri = u)).isEmpty then
                   mdel m s.name
                 else mset m s.name (list.filter (fun x => ¬ x.uri = u)))
            s.name
            = (match mget m s.name with
               | none => none
               | some l =>
                   if (l.filter (fun x => ¬ x.uri = u)).isEmpty then none
                   else some (l.filter (fun x => ¬ x.uri = u))) := by
          cases hm : mget m s.name with
          | none => simp [hm]
          | some l =>
              simp only []
              by_cases hnl : (l.filter (fun x => ¬ x.uri = u)).isEmpty
              · rw [if_pos hnl, if_pos hnl, mget_mdel, if_pos rfl]
              · rw [if_neg hnl, if_neg hnl, mget_mset, if_pos rfl]
        rw [List.filter_cons_of_pos (by simp)]
        simp only [List.isEmpty_cons, Bool.false_eq_true, if_false]
        by_cases hre : (rest.filter (fun x => x.name = s.name)).isEmpty
        · rw [if_pos hre, hstepname]
        · rw [if_neg hre, hstepname]
          cases hm : mget m s.name with
          | none => rfl
          | some l =>
              simp only []
              by_cases hnl : (l.filter (fun x => ¬ x.uri = u)).isEmpty
              · rw [if_pos hnl]
              · rw [if_neg hnl]
                simp only []
                rw [hidem l, if_neg hnl]
      · have hstepget : mget
            (match mget m s.name with
             | none => m
             | some list =>
                 if (list.filter (fun x => ¬ x.uri = u)).isEmpty then
                   mdel m s.name
                 else mset m s.name (list.filter (fun x => ¬ x.uri = u))) n
            = mget m n := by
          cases hm : mget m s.name with
          | none => rfl
          | some l =>
              simp only []
              by_cases hnl : (l.filter (fun x => ¬ x.uri = u)).isEmpty
              · rw [if_pos hnl, mget_mdel, if_neg (fun h => hn h.symm)]
              · rw [if_neg hnl, mget_mset, if_neg (fun h => hn h.symm)]
        rw [List.filter_cons_of_neg (by simp [hn])]
        simp only [hstepget]

end ByNameFormulas

section ExtractionUri

theorem foldr_push_uri {β : Type} (u : String)
    (f : β → List JinkSymbol → List JinkSymbol)
    (hf : ∀ b acc sym, sym ∈ f b acc → sym ∈ acc ∨ sym.uri = u) :
    ∀ (ms : List β) (sym : JinkSymbol), sym ∈ ms.foldr f [] → sym.uri = u := by
  intro ms
  induction ms with
  | nil => intro sym h; cases h
  | cons b rest ih =>
      intro sym h
      rcases hf b _ sym h with h' | h'
      · exact ih sym h'
      · exact h'

/-- Every symbol a line contributes is owned by the updated document. -/
theorem processLine_uri (u : String) (i : Nat) (line : List Char)
    (rest : List (List Char)) :
    ∀ sym ∈ (processLine u i line rest).1, sym.uri = u := by
  intro sym h
  unfold processLine at h
  repeat' split at h
  all_goals
    first
      | (rcases List.mem_singleton.mp h with rfl; rfl)
      | cases h
      | (refine foldr_push_uri u _ ?_ _ sym h
         intro b acc s hs
         obtain ⟨ms0, t, n, m0⟩ := b
         simp only [] at hs
         split at hs
         · exact Or.inl hs
         · rcases List.mem_cons.mp hs with rfl | hs'
           · exact Or.inr rfl
           · exact Or.inl hs')

/-- Every symbol `update` extracts is owned by the updated document. -/
theorem updateGo_uri (u : String) (lines : List (List Char)) :
    ∀ (fuel i : Nat) (sym : JinkSymbol),
      sym ∈ (updateGo u lines fuel i).1 → sym.uri = u := by
  intro fuel
  induction fuel with
  | zero => intro i sym h; cases h
  | succ fuel ih =>
      intro i sym h
      unfold updateGo at h
      by_cases hi : i < lines.length
      · rw [if_pos hi] at h
        by_cases he : (jsTrim (lines.getD i [])).isEmpty
        · rw [if_pos he] at h
          exact ih _ _ h
        · rw [if_neg he] at h
          simp only [] at h
          rcases List.mem_append.mp h with h' | h'
          · exact processLine_uri u i _ _ sym h'
          · exact ih _ _ h'
      · rw [if_neg hi] at h
        cases h

theorem extractFromText_uri (u t : String) :
    ∀ sym ∈ (extractFromText u t).1, sym.uri = u := by
  intro sym h
  exact updateGo_uri u _ _ _ sym h

end ExtractionUri

section WellFormed

/-- The lockstep invariant of the two symbol maps: every by-name entry is
a symbol of that name present in its owner's by-document entry, and every
by-document symbol is owned by its key and reachable by name. -/
structure IndexerWf (st : Indexer) : Prop where
  nameOk : ∀ n sym, sym ∈ mgetD st.symbolsByName n → sym.name = n
  nameInUri : ∀ n sym, sym ∈ mgetD st.symbolsByName n →
    sym ∈ mgetD st.symbolsByUri sym.uri
  uriOk : ∀ k sym, sym ∈ mgetD st.symbolsByUri k → sym.uri = k
  uriInName : ∀ k sym, sym ∈ mgetD st.symbolsByUri k →
    sym ∈ mgetD st.symbolsByName sym.name

theorem wf_empty : IndexerWf Indexer.empty := by
  constructor <;> (intro a b hmem; cases hmem)

/-- `remove` through the by-name formula, keyed on the document's own
by-document entry. -/
theorem remove_symbolsByName_mget (idx : Indexer) (u n : String) :
    mget (idx.remove u).symbolsByName n =
      if ((mgetD idx.symbolsByUri u).filter (fun s => s.name = n)).isEmpty then
        mget idx.symbolsByName n
      else
        match mget idx.symbolsByName n with
        | none => none
        | some l =>
            if (l.filter (fun s => ¬ s.uri = u)).isEmpty then none
            else some (l.filter (fun s => ¬ s.uri = u)) := by
  unfold Indexer.remove
  cases hS : mget idx.symbolsByUri u with
  | none =>
      simp only [mgetD_eq, hS, Option.getD_none, List.filter_nil,
        List.isEmpty_nil, if_true]
  | some symbols =>
      simp only []
      rw [removeSymsByName_mget]
      simp only [mgetD_eq, hS, Option.getD_some]

/-- `update` through the by-name formula: the fresh symbols named `n` are
appended to the post-removal entry. -/
theorem update_symbolsByName_mget (idx : Indexer) (u t : String) (n : String) :
    mget (idx.update u t).symbolsByName n =
      if ((extractFromText u t).1.filter (fun s => s.name = n)).isEmpty then
        mget (idx.remove u).symbolsByName n
      else
        some (mgetD (idx.remove u).symbolsByName n ++
          (extractFromText u t).1.filter (fun s => s.name = n)) := by
  rw [update_symbolsByName, insertSymsByName_mget]

/-- Under the invariant: if the document `u` owns no symbol named `n`,
then no symbol of `u` sits in the by-name entry for `n`. -/
theorem wf_byName_filter (st : Indexer) (hWf : IndexerWf st) (u n : String)
    (hcov : ((mgetD st.symbolsByUri u).filter
      (fun s => s.name = n)).isEmpty = true) :
    (mgetD st.symbolsByName n).filter (fun s => ¬ s.uri = u)
      = mgetD st.symbolsByName n := by
  apply List.filter_eq_self.mpr
  intro sym hmem
  simp only [decide_eq_true_eq]
  intro hu
  have h1 : sym.name = n := hWf.nameOk n sym hmem
  have h2 : sym ∈ mgetD st.symbolsByUri sym.uri := hWf.nameInUri n sym hmem
  rw [hu] at h2
  have h3 : sym ∈ (mgetD st.symbolsByUri u).filter (fun s => s.name = n) :=
    List.mem_filter.mpr ⟨h2, by simp [h1]⟩
  rw [List.isEmpty_iff] at hcov
  rw [hcov] at h3
  cases h3

/-- After `remove u`, the by-name lists hold no symbol of `u`. -/
theorem remove_byName_no_uri (st : Indexer) (hWf : IndexerWf st)
    (u n : String) :
    (mgetD (st.remove u).symbolsByName n).filter (fun s => ¬ s.uri = u)
      = mgetD (st.remove u).symbolsByName n := by
  rw [mgetD_eq, remove_symbolsByName_mget]
  by_cases hcov : ((mgetD st.symbolsByUri u).filter
      (fun s => s.name = n)).isEmpty = true
  · rw [if_pos hcov]
    rw [← mgetD_eq]
    exact wf_byName_filter st hWf u n hcov
  · rw [if_neg hcov]
    cases hm : mget st.symbolsByName n with
    | none => rfl
    | some l =>
        simp only []
        by_cases hnl : (l.filter (fun s => ¬ s.uri = u)).isEmpty
        · rw [if_pos hnl]
          rfl
        · rw [if_neg hnl]
          simp only [Option.getD_some]
          exact List.filter_eq_self.mpr
            (fun a ha => (List.mem_filter.mp ha).2)

/-- The fresh symbols of `update u t` restricted to any name are all
owned by `u`, so the owner filter removes them entirely. -/
theorem extract_filter_uri (u t : String) (n : String) :
    (((extractFromText u t).1.filter (fun s => s.name = n)).filter
      (fun s => ¬ s.uri = u)) = [] := by
  rw [List.filter_eq_nil_iff]
  intro a ha
  have := extractFromText_uri u t a (List.mem_filter.mp ha).1
  simp [this]

end WellFormed

section WfPreservation

theorem remove_byUri_getD (idx : Indexer) (u k : String) :
    mgetD (idx.remove u).symbolsByUri k =
      if k = u then [] else mgetD idx.symbolsByUri k := by
  rw [mgetD_eq, remove_symbolsByUri]
  by_cases hk : k = u
  · rw [if_pos hk, if_pos hk]
    rfl
  · rw [if_neg hk, if_neg hk, mgetD_eq]

theorem update_byUri_getD (idx : Indexer) (u t : String) (k : String) :
    mgetD (idx.update u t).symbolsByUri k =
      if k = u then (extractFromText u t).1 else mgetD idx.symbolsByUri k := by
  rw [mgetD_eq, update_symbolsByUri]
  by_cases hk : k = u
  · rw [if_pos hk, if_pos hk]
    rfl
  · rw [if_neg hk, if_neg hk, mgetD_eq]

/-- Under the invariant, `remove u` leaves each by-name entry exactly
filtered by owner (the content of claim C3's by-name clause). -/
theorem remove_byName_eq_filter (st : Indexer) (hWf : IndexerWf st)
    (u n : String) :
    mgetD (st.remove u).symbolsByName n
      = (mgetD st.symbolsByName n).filter (fun s => ¬ s.uri = u) := by
  rw [mgetD_eq, remove_symbolsByName_mget]
  by_cases hcov : ((mgetD st.symbolsByUri u).filter
      (fun s => s.name = n)).isEmpty = true
  · rw [if_pos hcov, ← mgetD_eq]
    exact (wf_byName_filter st hWf u n hcov).symm
  · rw [if_neg hcov]
    cases hm : mget st.symbolsByName n with
    | none => simp [mgetD_eq, hm]
    | some l =>
        simp only []
        by_cases hnl : (l.filter (fun s => ¬ s.uri = u)).isEmpty
        · rw [if_pos hnl]
          rw [List.isEmpty_iff] at hnl
          rw [mgetD_eq, hm]
          simp only [Option.getD_none, Option.getD_some]
          exact hnl.symm
        · rw [if_neg hnl]
          simp [mgetD_eq, hm]

theorem update_byName_getD (idx : Indexer) (u t : String) (n : String) :
    mgetD (idx.update u t).symbolsByName n =
      if ((extractFromText u t).1.filter (fun s => s.name = n)).isEmpty then
        mgetD (idx.remove u).symbolsByName n
      else
        mgetD (idx.remove u).symbolsByName n ++
          (extractFromText u t).1.filter (fun s => s.name = n) := by
  rw [mgetD_eq, update_symbolsByName_mget]
  by_cases he : ((extractFromText u t).1.filter (fun s => s.name = n)).isEmpty
  · rw [if_pos he, if_pos he, mgetD_eq]
  · rw [if_neg he, if_neg he]
    rfl

theorem wf_remove (st : Indexer) (hWf : IndexerWf st) (u : String) :
    IndexerWf (st.remove u) := by
  constructor
  · intro n sym hmem
    rw [remove_byName_eq_filter st hWf] at hmem
    exact hWf.nameOk n sym (List.mem_filter.mp hmem).1
  · intro n sym hmem
    rw [remove_byName_eq_filter st hWf] at hmem
    obtain ⟨hmem', hdec⟩ := List.mem_filter.mp hmem
    have hne : ¬ sym.uri = u := by simpa using hdec
    rw [remove_byUri_getD, if_neg hne]
    exact hWf.nameInUri n sym hmem'
  · intro k sym hmem
    rw [remove_byUri_getD] at hmem
    by_cases hk : k = u
    · rw [if_pos hk] at hmem
      cases hmem
    · rw [if_neg hk] at hmem
      exact hWf.uriOk k sym hmem
  · intro k sym hmem
    rw [remove_byUri_getD] at hmem
    by_cases hk : k = u
    · rw [if_pos hk] at hmem
      cases hmem
    · rw [if_neg hk] at hmem
      have huri : sym.uri = k := hWf.uriOk k sym hmem
      have hname := hWf.uriInName k sym hmem
      rw [remove_byName_eq_filter st hWf]
      exact List.mem_filter.mpr ⟨hname, by simp [huri, hk]⟩

theorem wf_update (st : Indexer) (hWf : IndexerWf st) (u t : String) :
    IndexerWf (st.update u t) := by
  have hR := wf_remove st hWf u
  constructor
  · intro n sym hmem
    rw [update_byName_getD] at hmem
    by_cases he : ((extractFromText u t).1.filter
        (fun s => s.name = n)).isEmpty
    · rw [if_pos he] at hmem
      exact hR.nameOk n sym hmem
    · rw [if_neg he] at hmem
      rcases List.mem_append.mp hmem with h1 | h1
      · exact hR.nameOk n sym h1
      · have := (List.mem_filter.mp h1).2
        simpa using this
  · intro n sym hmem
    rw [update_byName_getD] at hmem
    by_cases he : ((extractFromText u t).1.filter
        (fun s => s.name = n)).isEmpty
    · rw [if_pos he] at hmem
      have h2 := hR.nameInUri n sym hmem
      rw [remove_byUri_getD] at h2
      by_cases hu : sym.uri = u
      · rw [if_pos hu] at h2
        cases h2
      · rw [if_neg hu] at h2
        rw [update_byUri_getD, if_neg hu]
        exact h2
    · rw [if_neg he] at hmem
      rcases List.mem_append.mp hmem with h1 | h1
      · have h2 := hR.nameInUri n sym h1
        rw [remove_byUri_getD] at h2
        by_cases hu : sym.uri = u
        · rw [if_pos hu] at h2
          cases h2
        · rw [if_neg hu] at h2
          rw [update_byUri_getD, if_neg hu]
          exact h2
      · have hinE := (List.mem_filter.mp h1).1
        have huri := extractFromText_uri u t sym hinE
        rw [update_byUri_getD, if_pos huri]
        exact hinE
  · intro k sym hmem
    rw [update_byUri_getD] at hmem
    by_cases hk : k = u
    · rw [if_pos hk] at hmem
      rw [hk]
      exact extractFromText_uri u t sym hmem
    · rw [if_neg hk] at hmem
      exact hWf.uriOk k sym hmem
  · intro k sym hmem
    rw [update_byUri_getD] at hmem
    by_cases hk : k = u
    · rw [if_pos hk] at hmem
      rw [update_byName_getD]
      have hS : sym ∈ (extractFromText u t).1.filter
          (fun s => s.name = sym.name) :=
        List.mem_filter.mpr ⟨hmem, by simp⟩
      have hne : ¬ ((extractFromText u t).1.filter
          (fun s => s.name = sym.name)).isEmpty = true := by
        rw [List.isEmpty_iff]
        intro hnil
        rw [hnil] at hS
        cases hS
      rw [if_neg hne]
      exact List.mem_append.mpr (Or.inr hS)
    · rw [if_neg hk] at hmem
      have hmemR : sym ∈ mgetD (st.remove u).symbolsByUri k := by
        rw [remove_byUri_getD, if_neg hk]
        exact hmem
      have h2 := hR.uriInName k sym hmemR
      rw [update_byName_getD]
      by_cases he : ((extractFromText u t).1.filter
          (fun s => s.name = sym.name)).isEmpty
      · rw [if_pos he]
        exact h2
      · rw [if_neg he]
        exact List.mem_append.mpr (Or.inl h2)

end WfPreservation

section ClaimsC2C3C4

/-- Claim C2: on a well-formed index (the invariant every reachable index
satisfies, see C4), updating the same document with the same text twice
leaves the index observably identical to updating once: every lookup of
the by-document symbol map, the by-document import map and the by-name
map agrees, so the document's symbol and import sets are identical
element for element and the double update duplicates no symbol in the
by-name map. -/
theorem C2_update_idempotent (st : Indexer) (d t : String)
    (hWf : IndexerWf st) :
    (∀ k, mget ((st.update d t).update d t).symbolsByUri k
        = mget (st.update d t).symbolsByUri k) ∧
    (∀ k, mget ((st.update d t).update d t).importsByUri k
        = mget (st.update d t).importsByUri k) ∧
    (∀ n, mget ((st.update d t).update d t).symbolsByName n
        = mget (st.update d t).symbolsByName n) := by
  refine ⟨?_, ?_, ?_⟩
  · intro k
    rw [update_symbolsByUri (st.update d t) d t k]
    by_cases hk : k = d
    · rw [if_pos hk, hk, update_symbolsByUri, if_pos rfl]
    · rw [if_neg hk]
  · intro k
    rw [update_importsByUri (st.update d t) d t k]
    by_cases hk : k = d
    · rw [if_pos hk, hk, update_importsByUri, if_pos rfl]
    · rw [if_neg hk]
  · intro n
    rw [update_symbolsByName_mget (st.update d t) d t n]
    by_cases he : ((extractFromText d t).1.filter
        (fun s => s.name = n)).isEmpty
    · rw [if_pos he]
      rw [remove_symbolsByName_mget (st.update d t) d n]
      rw [update_byUri_getD st d t d, if_pos rfl]
      rw [if_pos he]
    · rw [if_neg he]
      rw [remove_byName_eq_filter (st.update d t) (wf_update st hWf d t) d n]
      rw [update_byName_getD st d t n, if_neg he]
      rw [List.filter_append, extract_filter_uri, List.append_nil,
          remove_byName_no_uri st hWf d n]
      rw [update_symbolsByName_mget st d t n, if_neg he]

/-- Witness for C2 at a concrete state and document. -/
theorem C2_update_idempotent_witness :
    mget (((Indexer.empty.update "d.jk" "let x = 1;").update "d.jk"
        "let x = 1;")).symbolsByName "x"
      = mget (Indexer.empty.update "d.jk" "let x = 1;").symbolsByName "x" :=
  (C2_update_idempotent Indexer.empty "d.jk" "let x = 1;" wf_empty).2.2 "x"

/-- Claim C3: on a well-formed index, `remove d` after `update d t`
deletes `d`'s by-document symbol and import entries, leaves every other
document's entries untouched, and leaves each by-name list exactly equal
to the original list with `d`'s symbols filtered out (so `d`'s
contributions are gone and all other documents' by-name entries are
unchanged, order included). -/
theorem C3_remove_after_update (st : Indexer) (d t : String)
    (hWf : IndexerWf st) :
    (∀ d', mget ((st.update d t).remove d).symbolsByUri d'
        = if d' = d then none else mget st.symbolsByUri d') ∧
    (∀ d', mget ((st.update d t).remove d).importsByUri d'
        = if d' = d then none else mget st.importsByUri d') ∧
    (∀ n, mgetD ((st.update d t).remove d).symbolsByName n
        = (mgetD st.symbolsByName n).filter (fun s => ¬ s.uri = d)) := by
  refine ⟨?_, ?_, ?_⟩
  · intro d'
    rw [remove_symbolsByUri]
    by_cases hd : d' = d
    · rw [if_pos hd, if_pos hd]
    · rw [if_neg hd, if_neg hd, update_symbolsByUri, if_neg hd]
  · intro d'
    rw [remove_importsByUri]
    by_cases hd : d' = d
    · rw [if_pos hd, if_pos hd]
    · rw [if_neg hd, if_neg hd, update_importsByUri, if_neg hd]
  · intro n
    rw [remove_byName_eq_filter (st.update d t) (wf_update st hWf d t) d n]
    rw [update_byName_getD st d t n]
    by_cases he : ((extractFromText d t).1.filter
        (fun s => s.name = n)).isEmpty
    · rw [if_pos he]
      rw [remove_byName_eq_filter st hWf d n]
      exact List.filter_eq_self.mpr (fun a ha => (List.mem_filter.mp ha).2)
    · rw [if_neg he]
      rw [List.filter_append, extract_filter_uri, List.append_nil,
          remove_byName_no_uri st hWf d n, remove_byName_eq_filter st hWf d n]

/-- Witness for C3 at a concrete state and document. -/
theorem C3_remove_after_update_witness :
    mgetD (((Indexer.empty.update "d.jk" "let x = 1;").remove
        "d.jk")).symbolsByName "x"
      = (mgetD Indexer.empty.symbolsByName "x").filter
          (fun s => ¬ s.uri = "d.jk") :=
  (C3_remove_after_update Indexer.empty "d.jk" "let x = 1;" wf_empty).2.2 "x"

/-- An index mutation: the only two operations that touch the maps. -/
inductive IndexerOp where
  | updateOp (uri text : String)
  | removeOp (uri : String)

def applyOp (idx : Indexer) : IndexerOp → Indexer
  | .updateOp u t => idx.update u t
  | .removeOp u => idx.remove u

/-- The index reached from the empty index by a sequence of operations. -/
def applyOps (ops : List IndexerOp) : Indexer :=
  ops.foldl applyOp Indexer.empty

theorem wf_foldl_applyOp (ops : List IndexerOp) :
    ∀ st, IndexerWf st → IndexerWf (ops.foldl applyOp st) := by
  induction ops with
  | nil => intro st h; exact h
  | cons op rest ih =>
      intro st h
      rw [List.foldl_cons]
      apply ih
      cases op with
      | updateOp u t => exact wf_update st h u t
      | removeOp u => exact wf_remove st h u

/-- Claim C4: after any sequence of `update`/`remove` operations from the
empty index, the two maps are in lockstep: every symbol reachable through
the by-name map (under its own name) is present in its owning document's
by-document entry, and every symbol of a by-document entry is reachable
through the by-name map under its name. -/
theorem C4_lockstep_invariant (ops : List IndexerOp) :
    IndexerWf (applyOps ops) :=
  wf_foldl_applyOp ops Indexer.empty wf_empty

end ClaimsC2C3C4
